import Mathlib

/-!
# Feline router: grid geometry and tolerance checks

A shallow embedding of the coarse-grid primitives of the Feline router
(`common/route/feline.h`, `common/route/feline_internal.h`,
`common/route/feline_detail.cc`) and of the cell tables of the static placer
(`common/place/placer_static.cc`), and proofs of their specified properties.

Machine integers are modelled as `Int`.  A C++ `int16_t` field is an `Int`
together with the range predicate `isInt16`; every arithmetic operation that
C++ performs in `int` is wrapped by `wrapInt32`, every narrowing to `int16_t`
by `wrapInt16`, so that absence of wraparound is something that is proved and
not assumed.
-/

namespace Feline

/-! ## Machine integers -/

/-- Two's complement reduction of an integer to the signed 16-bit range. -/
def wrapInt16 (v : Int) : Int := (v + 32768) % 65536 - 32768

/-- Two's complement reduction of an integer to the signed 32-bit range. -/
def wrapInt32 (v : Int) : Int := (v + 2147483648) % 4294967296 - 2147483648

/-- The value is representable as an `int16_t`. -/
def isInt16 (v : Int) : Prop := -32768 ≤ v ∧ v ≤ 32767

instance (v : Int) : Decidable (isInt16 v) :=
  inferInstanceAs (Decidable (-32768 ≤ v ∧ v ≤ 32767))

/-- The value is representable as a 32-bit `int`. -/
def isInt32 (v : Int) : Prop := -2147483648 ≤ v ∧ v ≤ 2147483647

instance (v : Int) : Decidable (isInt32 v) :=
  inferInstanceAs (Decidable (-2147483648 ≤ v ∧ v ≤ 2147483647))

/-- The function `std::abs` on `int`: the negation is performed in `int`. -/
def absInt32 (v : Int) : Int := if v < 0 then wrapInt32 (-v) else v

/-! ## GCell (`feline.h`) -/

/-- A coarse grid coordinate; both fields are `int16_t` and default to the
lowest `int16_t`. -/
structure GCell where
  x : Int := -32768
  y : Int := -32768
deriving DecidableEq, Repr

namespace GCell

/-- Both coordinates are representable as `int16_t`. -/
def wf (c : GCell) : Prop := isInt16 c.x ∧ isInt16 c.y

instance (c : GCell) : Decidable c.wf :=
  inferInstanceAs (Decidable (isInt16 c.x ∧ isInt16 c.y))

/-- The member `operator==`. -/
def eq (a other : GCell) : Bool := a.x == other.x && a.y == other.y

/-- The member `operator<`. -/
def lt (a other : GCell) : Bool :=
  decide (a.y < other.y) || ((a.y == other.y) && decide (a.x < other.x))

/-- The member `operator<=`. -/
def le (a other : GCell) : Bool := a.eq other || a.lt other

/-- The member `operator>=`. -/
def ge (a other : GCell) : Bool := !(a.lt other)

/-- The member `operator!=`. -/
def ne (a other : GCell) : Bool := (a.x != other.x) || (a.y != other.y)

/-- The member `mdist`: the operands are promoted to `int`, so both
subtractions, both `std::abs` calls and the addition are `int` operations. -/
def mdist (a other : GCell) : Int :=
  wrapInt32 (absInt32 (wrapInt32 (a.x - other.x)) + absInt32 (wrapInt32 (a.y - other.y)))

end GCell

/-! ## GBox (`feline_internal.h`) -/

/-- An axis-aligned bounding box of cells; the four fields are `int16_t`.
The defaults are those of the default constructor `GBox()`. -/
structure GBox where
  x0 : Int := 32767
  y0 : Int := 32767
  x1 : Int := -32768
  y1 : Int := -32768
deriving DecidableEq, Repr

namespace GBox

/-- The constructor `GBox()`. -/
def unset : GBox := {}

/-- The constructor `GBox(int16_t x, int16_t y)`. -/
def point (x y : Int) : GBox := { x0 := x, y0 := y, x1 := x, y1 := y }

/-- The constructor `GBox(int16_t x0, int16_t y0, int16_t x1, int16_t y1)`. -/
def corners (x0 y0 x1 y1 : Int) : GBox := { x0 := x0, y0 := y0, x1 := x1, y1 := y1 }

/-- The member `extend`. -/
def extend (b : GBox) (p : GCell) : GBox :=
  { x0 := min b.x0 p.x, y0 := min b.y0 p.y, x1 := max b.x1 p.x, y1 := max b.y1 p.y }

/-- A run of `extend` calls, one per cell, in list order. -/
def extendAll (b : GBox) (ps : List GCell) : GBox := ps.foldl extend b

/-- The cell lies inside the box (bounds inclusive). -/
def contains (b : GBox) (c : GCell) : Prop :=
  b.x0 ≤ c.x ∧ c.x ≤ b.x1 ∧ b.y0 ≤ c.y ∧ c.y ≤ b.y1

instance (b : GBox) (c : GCell) : Decidable (b.contains c) :=
  inferInstanceAs (Decidable (b.x0 ≤ c.x ∧ c.x ≤ b.x1 ∧ b.y0 ≤ c.y ∧ c.y ≤ b.y1))

end GBox

namespace GBox

/-- The box is the value built by `GBox()`: the "unset" sentinel. -/
def isUnset (b : GBox) : Prop := b.x0 = 32767 ∧ b.y0 = 32767 ∧ b.x1 = -32768 ∧ b.y1 = -32768

instance (b : GBox) : Decidable b.isUnset :=
  inferInstanceAs (Decidable (b.x0 = 32767 ∧ b.y0 = 32767 ∧ b.x1 = -32768 ∧ b.y1 = -32768))

/-- The lower bounds do not exceed the upper bounds. -/
def ordered (b : GBox) : Prop := b.x0 ≤ b.x1 ∧ b.y0 ≤ b.y1

instance (b : GBox) : Decidable b.ordered :=
  inferInstanceAs (Decidable (b.x0 ≤ b.x1 ∧ b.y0 ≤ b.y1))

/-- A call of one of the three constructors of `GBox`, with its arguments. -/
inductive Ctor where
  | unset : Ctor
  | point (x y : Int) : Ctor
  | corners (x0 y0 x1 y1 : Int) : Ctor
deriving DecidableEq, Repr

/-- The box a constructor call builds. -/
def Ctor.build : Ctor → GBox
  | Ctor.unset => GBox.unset
  | Ctor.point x y => GBox.point x y
  | Ctor.corners x0 y0 x1 y1 => GBox.corners x0 y0 x1 y1

/-- The arguments of a constructor call are `int16_t` values. -/
def Ctor.wf : Ctor → Prop
  | Ctor.unset => True
  | Ctor.point x y => isInt16 x ∧ isInt16 y
  | Ctor.corners x0 y0 x1 y1 => isInt16 x0 ∧ isInt16 y0 ∧ isInt16 x1 ∧ isInt16 y1

instance (k : Ctor) : Decidable k.wf :=
  match k with
  | Ctor.unset => inferInstanceAs (Decidable True)
  | Ctor.point x y => inferInstanceAs (Decidable (isInt16 x ∧ isInt16 y))
  | Ctor.corners x0 y0 x1 y1 =>
    inferInstanceAs (Decidable (isInt16 x0 ∧ isInt16 y0 ∧ isInt16 x1 ∧ isInt16 y1))

/-- The arguments of a four-argument constructor call are given with the
lower corner first; the other two constructors have no such choice. -/
def Ctor.argsOrdered : Ctor → Prop
  | Ctor.unset => True
  | Ctor.point _ _ => True
  | Ctor.corners x0 y0 x1 y1 => x0 ≤ x1 ∧ y0 ≤ y1

instance (k : Ctor) : Decidable k.argsOrdered :=
  match k with
  | Ctor.unset => inferInstanceAs (Decidable True)
  | Ctor.point _ _ => inferInstanceAs (Decidable True)
  | Ctor.corners x0 y0 x1 y1 => inferInstanceAs (Decidable (x0 ≤ x1 ∧ y0 ≤ y1))

end GBox

/-! ## InFlightArc (`feline_detail.cc`) -/

namespace InFlightArc

/-- The member `within_tol_of_line`.  The cells carry `int16_t` coordinates,
the tolerances are `int`; all locals are `int`.  A failed `NPNR_ASSERT` is the
result `none`.  The method reads no field of `InFlightArc`. -/
def within_tol_of_line (line0 line1 actual : GCell) (xtol ytol : Int) : Option Int :=
  let horiz : Bool := line1.y == line0.y
  if !horiz && !(line1.x == line0.x) then none
  else
    let m0 := if horiz then line0.x else line0.y
    let m1 := if horiz then line1.x else line1.y
    let ma := if horiz then actual.x else actual.y
    let mtol := if horiz then xtol else ytol
    let f := if horiz then line0.y else line0.x
    let fa := if horiz then actual.y else actual.x
    let ftol := if horiz then ytol else xtol
    if (m1 > m0 ∧ ma < wrapInt32 (m0 - mtol)) ∨ (m1 < m0 ∧ ma > wrapInt32 (m0 + mtol)) then
      some (-2)
    else
      let df := absInt32 (wrapInt32 (fa - f))
      if df > ftol then some (-1)
      else if ma < min m0 m1 then some (wrapInt32 (df + wrapInt32 (min m0 m1 - ma)))
      else if ma > max m0 m1 then some (wrapInt32 (df + wrapInt32 (ma - max m0 m1)))
      else some df

end InFlightArc

/-! ## BaseFelineAPI (`feline.h`) -/

/-- Modelled from the spec: the type `ArcBounds` returned by
`getRouteBoundingBox` is declared in a header that is not embedded here;
the source uses it as a route bounding box with the four `int` fields
`x0`, `y0`, `x1`, `y1`. -/
structure ArcBounds where
  x0 : Int
  y0 : Int
  x1 : Int
  y1 : Int
deriving DecidableEq, Repr

/-- Modelled from the spec: the index dictionary `idict` of `hashlib.h` is
not embedded here.  It gives every registered key a dense integer index:
the keys are kept in registration order without repetition, the index of a
key is its position, `at` fails for a key that was never registered and
`size` is the number of registered keys. -/
structure idict (K : Type) where
  database : List K
deriving Repr

namespace idict

variable {K : Type} [DecidableEq K]

/-- The dictionary without keys. -/
def empty : idict K := { database := [] }

/-- Registration of a key (`operator()`): a new key is appended, a known key
keeps its index. -/
def register (d : idict K) (k : K) : idict K :=
  if k ∈ d.database then d else { database := d.database ++ [k] }

/-- Lookup `at`: the `int` index of a registered key, `none` (the C++
`out_of_range` exception) for any other key. -/
def «at» (d : idict K) (k : K) : Option Int :=
  if k ∈ d.database then some (wrapInt32 (d.database.indexOf k)) else none

/-- The number of registered keys, a `size_t`. -/
def size (d : idict K) : Nat := d.database.length

/-- Registration of a sequence of keys, in order. -/
def registerAll (d : idict K) (ks : List K) : idict K := ks.foldl register d

end idict

/-- The data members of `BaseFelineAPI` that the flat wire index reads.  The
context pointer is represented by the one query used, `getRouteBoundingBox`. -/
structure BaseFelineAPI (WireId : Type) where
  getRouteBoundingBox : WireId → WireId → ArcBounds
  wire2idx : idict WireId

namespace BaseFelineAPI

variable {WireId : Type} [DecidableEq WireId]

/-- The member `flatWireIndex`: `wire2idx.at(wire)`. -/
def flatWireIndex (api : BaseFelineAPI WireId) (wire : WireId) : Option Int :=
  api.wire2idx.«at» wire

/-- The member `flatWireSize`: `int32_t(wire2idx.size())`. -/
def flatWireSize (api : BaseFelineAPI WireId) : Int :=
  wrapInt32 (api.wire2idx.size : Int)

/-- The member `approxWireLoc`: the sums and the divisions are `int`
operations (division truncates towards zero), the results are narrowed to the
`int16_t` parameters of the `GCell` constructor. -/
def approxWireLoc (api : BaseFelineAPI WireId) (wire : WireId) : GCell :=
  let bb := api.getRouteBoundingBox wire wire
  { x := wrapInt16 (Int.tdiv (wrapInt32 (bb.x0 + bb.x1)) 2),
    y := wrapInt16 (Int.tdiv (wrapInt32 (bb.y0 + bb.y1)) 2) }

end BaseFelineAPI

/-! ## GCellSet (`feline_internal.h`)

The header declares the members of `GCellSet`; their bodies are in a file
that is not embedded here and are modelled from the specification. -/

/-- The data members of `GCellSet`: the cell sequence and the dirty flag. -/
structure GCellSet where
  cells : List GCell := []
  dirty : Bool := false
deriving DecidableEq, Repr

namespace GCellSet

/-- The empty set, as default-constructed. -/
def empty : GCellSet := {}

/-- Modelled from the spec: the body of `GCellSet::clear` is missing; it
leaves the set without cells and without pending insertions. -/
def clear (_s : GCellSet) : GCellSet := {}

/-- Modelled from the spec: the body of `GCellSet::push` is missing; the set
is "mutated by push()" and `dirty` is "true iff unsorted insertions pending",
so the cell is appended to the sequence and the set is marked dirty. -/
def push (s : GCellSet) (cell : GCell) : GCellSet :=
  { cells := s.cells ++ [cell], dirty := true }

/-- A run of `push` calls, one per cell, in list order. -/
def pushAll (s : GCellSet) (cs : List GCell) : GCellSet := cs.foldl push s

/-- Insertion of a cell into an increasing sequence at its place in the
`operator<` order; a cell equal (`operator==`) to one already there is not
inserted again. -/
def insertCell (c : GCell) : List GCell → List GCell
  | [] => [c]
  | d :: ds =>
    if c.lt d then c :: d :: ds
    else if c.eq d then d :: ds
    else d :: insertCell c ds

/-- Modelled from the spec: the body of `GCellSet::do_sort` is missing; the
set is a "sorted, deduplicated set of GCell", and "after `do_sort`" the
sequence is "strictly increasing by the total order" with no insertion
pending.  The cells are sorted by `operator<` and duplicates are dropped. -/
def do_sort (s : GCellSet) : GCellSet :=
  { cells := s.cells.foldr insertCell [], dirty := false }

/-- Modelled from the spec: the body of `GCellSet::next_cell` is missing; the
header documents it as "get previous and next cell, if any".  The result is
the first cell of the sequence that is greater than `c`, `none` if there is
no such cell. -/
def next_cell (s : GCellSet) (c : GCell) : Option GCell :=
  s.cells.find? (fun d => c.lt d)

/-- Modelled from the spec: the body of `GCellSet::prev_cell` is missing; the
header documents it as "get previous and next cell, if any".  The result is
the last cell of the sequence that is less than `c`, `none` if there is no
such cell. -/
def prev_cell (s : GCellSet) (c : GCell) : Option GCell :=
  s.cells.reverse.find? (fun d => d.lt c)

/-- The linear walk of the round-trip property: starting at `c`, call
`next_cell` until it reports no further cell, and collect the cells visited.
`fuel` bounds the number of `next_cell` calls; the result is `none` when the
bound is reached before the walk ends. -/
def walk (s : GCellSet) : Nat → GCell → Option (List GCell)
  | 0, _ => none
  | fuel + 1, c =>
    match s.next_cell c with
    | none => some [c]
    | some d => (walk s fuel d).map (fun rest => c :: rest)

/-- The walk from the minimum cell, which after `do_sort` is the first cell
of the sequence; a set without cells has nothing to visit. -/
def walkFromMin (s : GCellSet) (fuel : Nat) : Option (List GCell) :=
  match s.cells with
  | [] => some []
  | m :: _ => s.walk fuel m

/-- The first half of the round trip: every cell of the list is pushed into
an empty set, then the set is sorted. -/
def pushedAndSorted (pushed : List GCell) : GCellSet := (empty.pushAll pushed).do_sort

end GCellSet

/-! ## STree (`feline_internal.h`)

The header declares `STree` and its members; the body of `steinerise_hvw`
is in a file that is not embedded here and is modelled from the
specification. -/

/-- The members of `STreeNode` that shape the tree: the uphill cell and the
port count (`0` marks a Steiner node).  The `float criticality` member takes
no part in the shape of the tree and is left out. -/
structure STreeNode where
  uphill : GCell := {}
  port_count : Int := 0
deriving DecidableEq, Repr

/-- Modelled from the spec: the container `dict` of `hashlib.h` is not
embedded here.  It is the "mapping GCell→STreeNode" of the data model: a finite
map given by its keys, in insertion order, and the node stored for a key. -/
structure dict where
  keys : List GCell := []
  get : GCell → STreeNode := fun _ => {}

namespace dict

/-- Whether the key has an entry. -/
def count (d : dict) (k : GCell) : Bool := decide (k ∈ d.keys)

/-- Stores a node under a key: the entry is replaced when the key has one
and added otherwise. -/
def set (d : dict) (k : GCell) (v : STreeNode) : dict :=
  { keys := if k ∈ d.keys then d.keys else d.keys ++ [k],
    get := fun c => if c = k then v else d.get c }

end dict

/-- The data members of `STree`. -/
structure STree where
  source : GCell := {}
  nodes : dict := {}
  ports : GCellSet := {}
  box : GBox := {}

namespace STree

/-- The two cells differ in both `x` and `y`: an edge between them is
diagonal. -/
def diagonal (a b : GCell) : Prop := a.x ≠ b.x ∧ a.y ≠ b.y

instance (a b : GCell) : Decidable (diagonal a b) :=
  inferInstanceAs (Decidable (a.x ≠ b.x ∧ a.y ≠ b.y))

/-- The two cells share an `x` or a `y`: an edge between them is horizontal
or vertical. -/
def aligned (a b : GCell) : Prop := a.x = b.x ∨ a.y = b.y

instance (a b : GCell) : Decidable (aligned a b) :=
  inferInstanceAs (Decidable (a.x = b.x ∨ a.y = b.y))

/-- Modelled from the spec: the shapes into which `steinerise_hvw`
"decomposes each diagonal-spanning edge": horizontal first (`H`), vertical
first (`V`), or a "W" of three segments, horizontal, vertical, horizontal,
whose vertical segment runs in column `mid`. -/
inductive Shape where
  | H : Shape
  | V : Shape
  | W (mid : Int) : Shape
deriving DecidableEq, Repr

/-- Modelled from the spec: the bends of a shape for the edge from `n` up to
`u`, in order from `n`; they are the cells of the "inserted Steiner nodes".
A "W" whose column is that of `n` or of `u` has one bend only. -/
def bends (n u : GCell) : Shape → List GCell
  | Shape.H => [{ x := u.x, y := n.y }]
  | Shape.V => [{ x := n.x, y := u.y }]
  | Shape.W mid =>
    if mid = n.x then [{ x := n.x, y := u.y }]
    else if mid = u.x then [{ x := u.x, y := n.y }]
    else [{ x := mid, y := n.y }, { x := mid, y := u.y }]

/-- The uphill cell stored for a cell. -/
def up (t : STree) (k : GCell) : GCell := (t.nodes.get k).uphill

/-- Modelled from the spec: the tree in which `w` is the uphill cell of `k`.
A cell that has a node keeps its port count; a cell without a node gets an
"inserted Steiner node" (`port_count == 0`). -/
def setUphill (t : STree) (k w : GCell) : STree :=
  { source := t.source,
    nodes := t.nodes.set k
      { uphill := w,
        port_count := if k ∈ t.nodes.keys then (t.nodes.get k).port_count else 0 },
    ports := t.ports,
    box := t.box }

/-- Modelled from the spec: following the uphill links from `k`, for `fuel`
steps at most and not past the source, the cell `v` is met. -/
def chainMeets (t : STree) (v : GCell) : Nat → GCell → Bool
  | 0, k => decide (k = v)
  | fuel + 1, k =>
    decide (k = v) || (!decide (k = t.source) && chainMeets t v fuel (up t k))

/-- Modelled from the spec: the cell `c` hangs below `n`, that is, the uphill
chain of `c` passes `n`.  A chain of the tree has fewer links than the tree
has nodes. -/
def below (t : STree) (n c : GCell) : Bool := chainMeets t n t.nodes.keys.length c

/-- Following the uphill links from `k` through nodes of the tree, the
source is reached within `fuel` steps. -/
def reachesSource (t : STree) : Nat → GCell → Bool
  | 0, k => decide (k = t.source)
  | fuel + 1, k =>
    decide (k = t.source) || (decide (k ∈ t.nodes.keys) && reachesSource t fuel (up t k))

/-- Modelled from the spec: the invariant of `STree` in the data model.  The
source is a node, and
"every other node's uphill chain reaches the source in finite steps" (through
nodes of the tree; fewer steps than there are nodes are enough when there is
no cycle). -/
def isTree (t : STree) : Prop :=
  t.source ∈ t.nodes.keys
  ∧ ∀ k ∈ t.nodes.keys, reachesSource t t.nodes.keys.length k = true

instance (t : STree) : Decidable t.isTree :=
  inferInstanceAs (Decidable (t.source ∈ t.nodes.keys
    ∧ ∀ k ∈ t.nodes.keys, reachesSource t t.nodes.keys.length k = true))

/-- The uphill chain of `k` reaches the source in exactly `d` steps, through
nodes of the tree, and every cell of the chain, `k` and the source included,
satisfies `P`. -/
inductive Chain (t : STree) (P : GCell → Prop) : GCell → Nat → Prop where
  | source : P t.source → Chain t P t.source 0
  | step {k : GCell} {d : Nat} : P k → k ≠ t.source → k ∈ t.nodes.keys →
      Chain t P (up t k) d → Chain t P k (d + 1)

/-- The invariant of `STree` stated with chains: the source is a node and
every node has a chain to the source. -/
def rooted (t : STree) : Prop :=
  t.source ∈ t.nodes.keys ∧ ∀ k ∈ t.nodes.keys, ∃ d : Nat, Chain t (fun _ => True) k d

/-- Every cell of the run differs from the next one. -/
def chainDistinct : List GCell → Prop
  | [] => True
  | [_] => True
  | a :: b :: rest => a ≠ b ∧ chainDistinct (b :: rest)

/-- Modelled from the spec: one bend of the decomposition of the edge from
`v` up to its uphill cell `u`.  The bend cell `c` becomes the uphill cell of
`v`.  A free bend cell gets an "inserted Steiner node" below `u`.  A bend
cell that holds a node already is that node: when it hangs below `v` it is
moved up to hang below `u`, so that no cycle arises; otherwise it stays where
it is and `v` joins the tree there.  The flag tells whether `c` now hangs
directly below `u`, so that the decomposition goes on from `c`. -/
def viaBend (t : STree) (v c : GCell) : STree × Bool :=
  if c ∈ t.nodes.keys ∧ below t v c = false then
    (t.setUphill v c, false)
  else
    ((t.setUphill c (up t v)).setUphill v c, true)

/-- Modelled from the spec: the decomposition of the edge above `v` through a
run of bends, in order from `v`. -/
def followBends (t : STree) (v : GCell) : List GCell → STree
  | [] => t
  | c :: rest =>
    if (viaBend t v c).2 = true then followBends (viaBend t v c).1 c rest
    else (viaBend t v c).1

/-- Modelled from the spec: the decomposition of the edge above node `n`.
The source has no uphill edge; an edge that is not diagonal is left alone; a
diagonal edge is rerouted through the bends of the chosen shape. -/
def fixEdge (shape : STree → GCell → GCell → Shape) (t : STree) (n : GCell) : STree :=
  if n = t.source then t
  else if diagonal n (up t n) then followBends t n (bends n (up t n) (shape t n (up t n)))
  else t

/-- Modelled from the spec: the body of `STree::steinerise_hvw` is missing.
It "decomposes each diagonal-spanning edge into explicit
horizontal/vertical/"W"-shaped segments through inserted Steiner nodes": the
edge above every node of the tree is visited once.  Which shape an edge gets
is a choice the specification leaves open; it is the parameter `shape`, which
may look at the tree as it is when the edge is visited. -/
def steinerise_hvw (shape : STree → GCell → GCell → Shape) (t : STree) : STree :=
  t.nodes.keys.foldl (fixEdge shape) t

/-- Every cell of the run shares a coordinate with the next one, and the
last one with `u`. -/
def chainAligned : List GCell → GCell → Prop
  | [], _ => True
  | [s], u => aligned s u
  | s :: s' :: rest, u => aligned s s' ∧ chainAligned (s' :: rest) u

/-- A tree of three nodes: the source `(0, 0)`, the port `(5, 5)` below the
source, and the port `(0, 5)` below `(5, 5)`.  The edge above `(5, 5)` is
diagonal, and the bend of its horizontal-first shape is the cell `(0, 5)`,
which hangs below `(5, 5)`. -/
def sampleTree : STree :=
  { source := { x := 0, y := 0 },
    nodes :=
      ((({} : dict).set { x := 0, y := 0 } { uphill := {}, port_count := 1 }).set
          { x := 5, y := 5 } { uphill := { x := 0, y := 0 }, port_count := 1 }).set
        { x := 0, y := 5 } { uphill := { x := 5, y := 5 }, port_count := 1 } }

end STree

/-! ## InFlightArc, continued (`feline_detail.cc`) -/

namespace InFlightArc

/-- The member `within_tol_of_cell`.  The cells carry `int16_t` coordinates,
the tolerances are `int`; the distances are `int` values.  The method reads
no field of `InFlightArc`. -/
def within_tol_of_cell (target actual : GCell) (xtol ytol : Int) : Int :=
  let xdist := absInt32 (wrapInt32 (target.x - actual.x))
  let ydist := absInt32 (wrapInt32 (target.y - actual.y))
  if xdist ≤ xtol ∧ ydist ≤ ytol then wrapInt32 (xdist + ydist) else -1

/-- The `int` expression that the backward-step test of `within_tol_of_line`
evaluates does not overflow: `m0 - mtol` when `line1` lies ahead of `line0`
in increasing direction, `m0 + mtol` when it lies ahead in decreasing
direction, where the moving axis is x and the tolerance `xtol` for a
horizontal line, y and `ytol` for a vertical one.  For `line0 == line1`
neither expression is evaluated. -/
def backwardTestDefined (line0 line1 : GCell) (xtol ytol : Int) : Prop :=
  if line1.y = line0.y then
    (line0.x < line1.x → isInt32 (line0.x - xtol))
      ∧ (line1.x < line0.x → isInt32 (line0.x + xtol))
  else
    (line0.y < line1.y → isInt32 (line0.y - ytol))
      ∧ (line1.y < line0.y → isInt32 (line0.y + ytol))

instance (line0 line1 : GCell) (xtol ytol : Int) :
    Decidable (backwardTestDefined line0 line1 xtol ytol) :=
  inferInstanceAs (Decidable (if line1.y = line0.y then
    (line0.x < line1.x → isInt32 (line0.x - xtol))
      ∧ (line1.x < line0.x → isInt32 (line0.x + xtol))
  else
    (line0.y < line1.y → isInt32 (line0.y - ytol))
      ∧ (line1.y < line0.y → isInt32 (line0.y + ytol))))

/-- How far `v` lies outside the interval between `p` and `q`: the overshoot
past the nearer end, `0` inside the interval. -/
def overshoot (v p q : Int) : Int :=
  if v < min p q then min p q - v
  else if v > max p q then v - max p q
  else 0

/-- The cell lies on the segment from `line0` to `line1`, for an
axis-aligned pair: each coordinate is between those of the two ends. -/
def onSegment (line0 line1 c : GCell) : Prop :=
  min line0.x line1.x ≤ c.x ∧ c.x ≤ max line0.x line1.x
  ∧ min line0.y line1.y ≤ c.y ∧ c.y ≤ max line0.y line1.y

instance (line0 line1 c : GCell) : Decidable (onSegment line0 line1 c) :=
  inferInstanceAs (Decidable (min line0.x line1.x ≤ c.x ∧ c.x ≤ max line0.x line1.x
    ∧ min line0.y line1.y ≤ c.y ∧ c.y ≤ max line0.y line1.y))

end InFlightArc

end Feline

/-! ## StaticPlacer (`common/place/placer_static.cc`)

The cell tables of the static placer.  The rectangle type `StaticRect` and
its `area()` are declared in a header that is not embedded here, and the
coordinates and areas are floating-point numbers; none of them decides an
index, so the rectangle type `Rect`, the number type `Num`, the area grid
type `Grid` and the cell type `Cell` (for `CellInfo`) are parameters, and so
are the area function and the addition of areas. -/

namespace PlacerStatic

/-- The struct `MoveCell`: `group`, `bx`, `by` are `int16_t`, the two flags
are one-bit fields. -/
structure MoveCell (Rect Num : Type) where
  rect : Rect
  x : Num
  y : Num
  group : Int
  bx : Int
  «by» : Int
  is_fixed : Bool
  is_spacer : Bool

/-- The struct `ConcreteCell`, with its default member values. -/
structure ConcreteCell (Cell : Type) where
  base_cell : Cell
  macro_root : Int := -1
  chunk_dx : Int := 0
  chunk_dy : Int := 0

/-- The struct `PlacerGroup`. -/
structure PlacerGroup (Num Grid : Type) where
  total_bels : Int
  concrete_area : Num
  total_area : Num
  loc_area : Grid

/-- The data members of `StaticPlacer` that `add_cell` reads and writes. -/
structure StaticPlacer (Rect Num Grid Cell : Type) where
  mcells : List (MoveCell Rect Num) := []
  ccells : List (ConcreteCell Cell) := []
  groups : List (PlacerGroup Num Grid) := []

/-- How a call of `add_cell` ends: it returns an index, the `NPNR_ASSERT`
fails, or `groups.at(group)` throws `std::out_of_range`. -/
inductive Outcome where
  | returned (idx : Int) : Outcome
  | assertion_failure : Outcome
  | out_of_range : Outcome
deriving DecidableEq, Repr

/-- The arguments of one `add_cell` call; `ci = none` is the null pointer. -/
structure Call (Rect Num Cell : Type) where
  rect : Rect
  group : Int
  x : Num
  y : Num
  ci : Option Cell

section

variable {Rect Num Grid Cell : Type}

/-- The member `add_cell`, as the state it leaves and the way it ends.
The new `MoveCell` is value-initialised and appended before the assertion is
checked; `int idx = mcells.size()` and
`int(ccells.size())` are narrowing conversions to `int`; `groups.at(group)`
converts `group` to an unsigned index and throws when it is not below
`groups.size()`. -/
def StaticPlacer.add_cell (area : Rect → Num) (add : Num → Num → Num)
    (p : StaticPlacer Rect Num Grid Cell) (rect : Rect) (group : Int) (x y : Num)
    (ci : Option Cell) : StaticPlacer Rect Num Grid Cell × Outcome :=
  let idx := Feline.wrapInt32 (p.mcells.length : Int)
  let m : MoveCell Rect Num :=
    { rect := rect, x := x, y := y, group := Feline.wrapInt16 group, bx := 0, «by» := 0,
      is_fixed := false, is_spacer := false }
  match ci with
  | some c =>
    if idx = Feline.wrapInt32 (p.ccells.length : Int) then
      let ccells := p.ccells ++ [{ base_cell := c }]
      if 0 ≤ group then
        match p.groups[group.toNat]? with
        | some g =>
          ({ mcells := p.mcells ++ [m], ccells := ccells,
             groups := p.groups.set group.toNat
               { total_bels := g.total_bels,
                 concrete_area := add g.concrete_area (area rect),
                 total_area := g.total_area,
                 loc_area := g.loc_area } },
            Outcome.returned idx)
        | none =>
          ({ mcells := p.mcells ++ [m], ccells := ccells, groups := p.groups },
            Outcome.out_of_range)
      else
        ({ mcells := p.mcells ++ [m], ccells := ccells, groups := p.groups },
          Outcome.out_of_range)
    else
      ({ mcells := p.mcells ++ [m], ccells := p.ccells, groups := p.groups },
        Outcome.assertion_failure)
  | none =>
    ({ mcells := p.mcells ++
         [{ rect := rect, x := x, y := y, group := Feline.wrapInt16 group, bx := 0,
            «by» := 0, is_fixed := false, is_spacer := true }],
       ccells := p.ccells, groups := p.groups },
      Outcome.returned idx)

/-- One call of a run: the state is replaced and the way the call ended is
recorded. -/
def StaticPlacer.step (area : Rect → Num) (add : Num → Num → Num)
    (acc : StaticPlacer Rect Num Grid Cell × List Outcome) (c : Call Rect Num Cell) :
    StaticPlacer Rect Num Grid Cell × List Outcome :=
  ((StaticPlacer.add_cell area add acc.1 c.rect c.group c.x c.y c.ci).1,
    acc.2 ++ [(StaticPlacer.add_cell area add acc.1 c.rect c.group c.x c.y c.ci).2])

/-- A sequence of `add_cell` calls from a given state: the final state and
how each call ended, in order. -/
def StaticPlacer.run (area : Rect → Num) (add : Num → Num → Num)
    (p : StaticPlacer Rect Num Grid Cell) (calls : List (Call Rect Num Cell)) :
    StaticPlacer Rect Num Grid Cell × List Outcome :=
  calls.foldl (StaticPlacer.step area add) (p, [])

/-- The placer with empty `mcells` and `ccells` and the given groups. -/
def StaticPlacer.start (groups : List (PlacerGroup Num Grid)) :
    StaticPlacer Rect Num Grid Cell :=
  { mcells := [], ccells := [], groups := groups }

end

/-- A sample run for the index alignment: two groups, then two concrete
cells followed by two spacers, with rectangles and cells given as numbers. -/
def sampleGroups : List (PlacerGroup Int Unit) :=
  [{ total_bels := 0, concrete_area := 0, total_area := 0, loc_area := () },
   { total_bels := 0, concrete_area := 0, total_area := 0, loc_area := () }]

/-- The calls of the sample run. -/
def sampleCalls : List (Call Int Int Nat) :=
  [{ rect := 3, group := 0, x := 1, y := 1, ci := some 10 },
   { rect := 4, group := 1, x := 2, y := 5, ci := some 11 },
   { rect := 1, group := 0, x := 0, y := 0, ci := none },
   { rect := 1, group := 1, x := 7, y := 2, ci := none }]

end PlacerStatic

namespace Feline

/-! ## Theorems -/

/-- C1: `GCell::operator<` compares `y` first and `x` second, is irreflexive
and transitive, and exactly one of `a < b`, `a == b`, `b < a` holds, where
`a == b` is equality of both coordinates. -/
theorem GCell_lt_strict_total_order (a b c : GCell) :
    (a.lt b = true ↔ (a.y < b.y ∨ (a.y = b.y ∧ a.x < b.x)))
    ∧ (a.eq b = true ↔ (a.x = b.x ∧ a.y = b.y))
    ∧ a.lt a = false
    ∧ (a.lt b = true → b.lt c = true → a.lt c = true)
    ∧ ((a.lt b = true ∧ a.eq b = false ∧ b.lt a = false)
        ∨ (a.lt b = false ∧ a.eq b = true ∧ b.lt a = false)
        ∨ (a.lt b = false ∧ a.eq b = false ∧ b.lt a = true)) := by
  have hlt : ∀ p q : GCell, p.lt q = true ↔ (p.y < q.y ∨ (p.y = q.y ∧ p.x < q.x)) := by
    intro p q
    simp [GCell.lt]
  have heq : ∀ p q : GCell, p.eq q = true ↔ (p.x = q.x ∧ p.y = q.y) := by
    intro p q
    simp [GCell.eq]
  have hltf : ∀ p q : GCell, p.lt q = false ↔ ¬ (p.y < q.y ∨ (p.y = q.y ∧ p.x < q.x)) := by
    intro p q
    rw [← hlt, Bool.not_eq_true]
  have heqf : ∀ p q : GCell, p.eq q = false ↔ ¬ (p.x = q.x ∧ p.y = q.y) := by
    intro p q
    rw [← heq, Bool.not_eq_true]
  refine ⟨hlt a b, heq a b, ?_, ?_, ?_⟩
  · rw [hltf]; omega
  · rw [hlt, hlt, hlt]; omega
  · rw [hlt, hlt, hltf, hltf, heq, heqf]; omega

/-! ### GBox.extend -/

theorem GBox.extend_fields (b : GBox) (p : GCell) :
    (b.extend p).x0 = min b.x0 p.x ∧ (b.extend p).y0 = min b.y0 p.y
    ∧ (b.extend p).x1 = max b.x1 p.x ∧ (b.extend p).y1 = max b.y1 p.y :=
  ⟨rfl, rfl, rfl, rfl⟩

theorem GBox.extendAll_nil (b : GBox) : GBox.extendAll b [] = b := rfl

theorem GBox.extendAll_cons (b : GBox) (p : GCell) (ps : List GCell) :
    GBox.extendAll b (p :: ps) = GBox.extendAll (b.extend p) ps := rfl

/-- A run of `extend` calls never moves a bound inwards. -/
theorem GBox.extendAll_bounds (ps : List GCell) (b : GBox) :
    (GBox.extendAll b ps).x0 ≤ b.x0 ∧ (GBox.extendAll b ps).y0 ≤ b.y0
    ∧ b.x1 ≤ (GBox.extendAll b ps).x1 ∧ b.y1 ≤ (GBox.extendAll b ps).y1 := by
  induction ps generalizing b with
  | nil => simp [GBox.extendAll_nil]
  | cons p ps ih =>
    rw [GBox.extendAll_cons]
    have h := ih (b.extend p)
    have e := GBox.extend_fields b p
    omega

/-- After a run of `extend` calls the box contains every cell of the run. -/
theorem GBox.extendAll_contains (ps : List GCell) (b : GBox) :
    ∀ c ∈ ps, (GBox.extendAll b ps).contains c := by
  induction ps generalizing b with
  | nil => intro c hc; cases hc
  | cons p ps ih =>
    intro c hc
    rw [GBox.extendAll_cons]
    rcases List.mem_cons.mp hc with rfl | hc
    · have h := GBox.extendAll_bounds ps (b.extend c)
      have e := GBox.extend_fields b c
      unfold GBox.contains
      omega
    · exact ih (b.extend p) c hc

/-- Every bound after a run of `extend` calls is the old bound or the
coordinate of one of the cells. -/
theorem GBox.extendAll_attained (ps : List GCell) (b : GBox) :
    ((GBox.extendAll b ps).x0 = b.x0 ∨ ∃ c ∈ ps, (GBox.extendAll b ps).x0 = c.x)
    ∧ ((GBox.extendAll b ps).y0 = b.y0 ∨ ∃ c ∈ ps, (GBox.extendAll b ps).y0 = c.y)
    ∧ ((GBox.extendAll b ps).x1 = b.x1 ∨ ∃ c ∈ ps, (GBox.extendAll b ps).x1 = c.x)
    ∧ ((GBox.extendAll b ps).y1 = b.y1 ∨ ∃ c ∈ ps, (GBox.extendAll b ps).y1 = c.y) := by
  induction ps generalizing b with
  | nil => simp [GBox.extendAll_nil]
  | cons p ps ih =>
    rw [GBox.extendAll_cons]
    obtain ⟨h1, h2, h3, h4⟩ := ih (b.extend p)
    have lift : ∀ f : GCell → Int, ∀ v : Int,
        (∃ c ∈ ps, v = f c) → ∃ c ∈ p :: ps, v = f c := by
      rintro f v ⟨c, hc, hv⟩
      exact ⟨c, List.mem_cons_of_mem _ hc, hv⟩
    have here : ∀ f : GCell → Int, ∀ v : Int, v = f p → ∃ c ∈ p :: ps, v = f c := by
      intro f v hv
      exact ⟨p, List.mem_cons_self _ _, hv⟩
    refine ⟨?_, ?_, ?_, ?_⟩
    · rcases h1 with h | h
      · rcases min_choice b.x0 p.x with hm | hm
        · left; rw [h]; exact hm
        · right; exact here GCell.x _ (by rw [h]; exact hm)
      · right; exact lift GCell.x _ h
    · rcases h2 with h | h
      · rcases min_choice b.y0 p.y with hm | hm
        · left; rw [h]; exact hm
        · right; exact here GCell.y _ (by rw [h]; exact hm)
      · right; exact lift GCell.y _ h
    · rcases h3 with h | h
      · rcases max_choice b.x1 p.x with hm | hm
        · left; rw [h]; exact hm
        · right; exact here GCell.x _ (by rw [h]; exact hm)
      · right; exact lift GCell.x _ h
    · rcases h4 with h | h
      · rcases max_choice b.y1 p.y with hm | hm
        · left; rw [h]; exact hm
        · right; exact here GCell.y _ (by rw [h]; exact hm)
      · right; exact lift GCell.y _ h

/-- C2: for a non-empty list of cells, extending the default-constructed box
by every cell, in any order, gives the tightest bounding box: each of
`x0`, `y0`, `x1`, `y1` is attained by a cell and bounds every cell, i.e. it is
the minimum x, minimum y, maximum x and maximum y of the list. -/
theorem GBox_extend_tightest_bounding_box (cells order : List GCell)
    (hne : cells ≠ []) (hwf : ∀ c ∈ cells, c.wf) (hperm : order.Perm cells) :
    ((∃ c ∈ cells, (GBox.extendAll GBox.unset order).x0 = c.x)
      ∧ ∀ c ∈ cells, (GBox.extendAll GBox.unset order).x0 ≤ c.x)
    ∧ ((∃ c ∈ cells, (GBox.extendAll GBox.unset order).x1 = c.x)
      ∧ ∀ c ∈ cells, c.x ≤ (GBox.extendAll GBox.unset order).x1)
    ∧ ((∃ c ∈ cells, (GBox.extendAll GBox.unset order).y0 = c.y)
      ∧ ∀ c ∈ cells, (GBox.extendAll GBox.unset order).y0 ≤ c.y)
    ∧ ((∃ c ∈ cells, (GBox.extendAll GBox.unset order).y1 = c.y)
      ∧ ∀ c ∈ cells, c.y ≤ (GBox.extendAll GBox.unset order).y1) := by
  obtain ⟨d, hd⟩ := List.exists_mem_of_ne_nil cells hne
  have hd' : d ∈ order := hperm.mem_iff.mpr hd
  have hdwf := hwf d hd
  have hcont : ∀ c ∈ cells, (GBox.extendAll GBox.unset order).contains c := by
    intro c hc
    exact GBox.extendAll_contains order GBox.unset c (hperm.mem_iff.mpr hc)
  have hdc := hcont d hd
  obtain ⟨a1, a2, a3, a4⟩ := GBox.extendAll_attained order GBox.unset
  have back : ∀ f : GCell → Int, ∀ v : Int,
      (∃ c ∈ order, v = f c) → ∃ c ∈ cells, v = f c := by
    rintro f v ⟨c, hc, hv⟩
    exact ⟨c, hperm.mem_iff.mp hc, hv⟩
  simp only [GBox.contains] at hcont hdc
  simp only [GCell.wf, isInt16] at hdwf
  have u0 : GBox.unset.x0 = 32767 := rfl
  have u1 : GBox.unset.y0 = 32767 := rfl
  have u2 : GBox.unset.x1 = -32768 := rfl
  have u3 : GBox.unset.y1 = -32768 := rfl
  rw [u0] at a1
  rw [u1] at a2
  rw [u2] at a3
  rw [u3] at a4
  refine ⟨⟨?_, fun c hc => (hcont c hc).1⟩, ⟨?_, fun c hc => (hcont c hc).2.1⟩,
    ⟨?_, fun c hc => (hcont c hc).2.2.1⟩, ⟨?_, fun c hc => (hcont c hc).2.2.2⟩⟩
  · rcases a1 with h | h
    · exact ⟨d, hd, by omega⟩
    · exact back GCell.x _ h
  · rcases a3 with h | h
    · exact ⟨d, hd, by omega⟩
    · exact back GCell.x _ h
  · rcases a2 with h | h
    · exact ⟨d, hd, by omega⟩
    · exact back GCell.y _ h
  · rcases a4 with h | h
    · exact ⟨d, hd, by omega⟩
    · exact back GCell.y _ h

/-- Witness for C2: three cells extended in a permuted order. -/
theorem GBox_extend_tightest_bounding_box_witness :
    ((∃ c ∈ [GCell.mk 3 (-1), GCell.mk (-4) 7, GCell.mk 0 0],
        (GBox.extendAll GBox.unset [GCell.mk 0 0, GCell.mk 3 (-1), GCell.mk (-4) 7]).x0 = c.x)
      ∧ ∀ c ∈ [GCell.mk 3 (-1), GCell.mk (-4) 7, GCell.mk 0 0],
        (GBox.extendAll GBox.unset [GCell.mk 0 0, GCell.mk 3 (-1), GCell.mk (-4) 7]).x0 ≤ c.x)
    ∧ ((∃ c ∈ [GCell.mk 3 (-1), GCell.mk (-4) 7, GCell.mk 0 0],
        (GBox.extendAll GBox.unset [GCell.mk 0 0, GCell.mk 3 (-1), GCell.mk (-4) 7]).x1 = c.x)
      ∧ ∀ c ∈ [GCell.mk 3 (-1), GCell.mk (-4) 7, GCell.mk 0 0],
        c.x ≤ (GBox.extendAll GBox.unset [GCell.mk 0 0, GCell.mk 3 (-1), GCell.mk (-4) 7]).x1)
    ∧ ((∃ c ∈ [GCell.mk 3 (-1), GCell.mk (-4) 7, GCell.mk 0 0],
        (GBox.extendAll GBox.unset [GCell.mk 0 0, GCell.mk 3 (-1), GCell.mk (-4) 7]).y0 = c.y)
      ∧ ∀ c ∈ [GCell.mk 3 (-1), GCell.mk (-4) 7, GCell.mk 0 0],
        (GBox.extendAll GBox.unset [GCell.mk 0 0, GCell.mk 3 (-1), GCell.mk (-4) 7]).y0 ≤ c.y)
    ∧ ((∃ c ∈ [GCell.mk 3 (-1), GCell.mk (-4) 7, GCell.mk 0 0],
        (GBox.extendAll GBox.unset [GCell.mk 0 0, GCell.mk 3 (-1), GCell.mk (-4) 7]).y1 = c.y)
      ∧ ∀ c ∈ [GCell.mk 3 (-1), GCell.mk (-4) 7, GCell.mk 0 0],
        c.y ≤ (GBox.extendAll GBox.unset [GCell.mk 0 0, GCell.mk 3 (-1), GCell.mk (-4) 7]).y1) :=
  GBox_extend_tightest_bounding_box
    [GCell.mk 3 (-1), GCell.mk (-4) 7, GCell.mk 0 0]
    [GCell.mk 0 0, GCell.mk 3 (-1), GCell.mk (-4) 7]
    (by simp) (by decide) (by decide)

/-- C4: `extend` only grows a box: the lower bounds do not increase, the
upper bounds do not decrease, and every cell inside the box before the call
is inside it afterwards. -/
theorem GBox_extend_monotone (b : GBox) (p : GCell) :
    (b.extend p).x0 ≤ b.x0 ∧ (b.extend p).y0 ≤ b.y0
    ∧ b.x1 ≤ (b.extend p).x1 ∧ b.y1 ≤ (b.extend p).y1
    ∧ ∀ c : GCell, b.contains c → (b.extend p).contains c := by
  simp only [GBox.extend, GBox.contains]
  refine ⟨by omega, by omega, by omega, by omega, ?_⟩
  intro c hc
  omega

theorem wrapInt32_of_isInt32 (v : Int) (h : isInt32 v) : wrapInt32 v = v := by
  unfold wrapInt32
  unfold isInt32 at h
  omega

theorem wrapInt16_of_isInt16 (v : Int) (h : isInt16 v) : wrapInt16 v = v := by
  unfold wrapInt16
  unfold isInt16 at h
  omega

/-- On `int16_t` operands the `int` expression `std::abs(p - q)` is the
mathematical absolute difference. -/
theorem absInt32_sub (p q : Int) (hp : isInt16 p) (hq : isInt16 q) :
    absInt32 (wrapInt32 (p - q)) = |p - q| := by
  unfold isInt16 at hp hq
  have hw : wrapInt32 (p - q) = p - q := wrapInt32_of_isInt32 _ (by unfold isInt32; omega)
  rw [hw]
  unfold absInt32
  split_ifs with h
  · rw [wrapInt32_of_isInt32 _ (by unfold isInt32; omega), abs_of_neg h]
  · rw [abs_of_nonneg (by omega)]

theorem abs_sub_int16_le (p q : Int) (hp : isInt16 p) (hq : isInt16 q) :
    |p - q| ≤ 65535 := by
  unfold isInt16 at hp hq
  rw [abs_le]
  omega

theorem GCell.mdist_eq (a b : GCell) (ha : a.wf) (hb : b.wf) :
    a.mdist b = |a.x - b.x| + |a.y - b.y| := by
  unfold GCell.mdist
  rw [absInt32_sub _ _ ha.1 hb.1, absInt32_sub _ _ ha.2 hb.2]
  apply wrapInt32_of_isInt32
  have b1 := abs_sub_int16_le a.x b.x ha.1 hb.1
  have b2 := abs_sub_int16_le a.y b.y ha.2 hb.2
  have n1 := abs_nonneg (a.x - b.x)
  have n2 := abs_nonneg (a.y - b.y)
  unfold isInt32
  omega

/-- C3: on cells with signed 16-bit coordinates `mdist` is the Manhattan
metric: it equals `|a.x-b.x| + |a.y-b.y|` (no wraparound), is non-negative,
is zero exactly when `a == b`, is symmetric and satisfies the triangle
inequality, the sum on the right being free of wraparound as well. -/
theorem GCell_mdist_manhattan_metric (a b c : GCell)
    (ha : a.wf) (hb : b.wf) (hc : c.wf) :
    a.mdist b = |a.x - b.x| + |a.y - b.y|
    ∧ 0 ≤ a.mdist b
    ∧ (a.mdist b = 0 ↔ a.eq b = true)
    ∧ a.mdist b = b.mdist a
    ∧ a.mdist c ≤ a.mdist b + b.mdist c
    ∧ wrapInt32 (a.mdist b + b.mdist c) = a.mdist b + b.mdist c := by
  have hab := GCell.mdist_eq a b ha hb
  have hba := GCell.mdist_eq b a hb ha
  have hbc := GCell.mdist_eq b c hb hc
  have hac := GCell.mdist_eq a c ha hc
  have heq : a.eq b = true ↔ (a.x = b.x ∧ a.y = b.y) := by simp [GCell.eq]
  have n1 := abs_nonneg (a.x - b.x)
  have n2 := abs_nonneg (a.y - b.y)
  have b1 := abs_sub_int16_le a.x b.x ha.1 hb.1
  have b2 := abs_sub_int16_le a.y b.y ha.2 hb.2
  have b3 := abs_sub_int16_le b.x c.x hb.1 hc.1
  have b4 := abs_sub_int16_le b.y c.y hb.2 hc.2
  have n3 := abs_nonneg (b.x - c.x)
  have n4 := abs_nonneg (b.y - c.y)
  have s1 := abs_sub_comm a.x b.x
  have s2 := abs_sub_comm a.y b.y
  have t1 := abs_sub_le a.x b.x c.x
  have t2 := abs_sub_le a.y b.y c.y
  have z1 : |a.x - b.x| = 0 ↔ a.x = b.x := by rw [abs_eq_zero]; omega
  have z2 : |a.y - b.y| = 0 ↔ a.y = b.y := by rw [abs_eq_zero]; omega
  refine ⟨hab, ?_⟩
  rw [heq]
  generalize a.mdist b = dab at hab ⊢
  generalize b.mdist a = dba at hba ⊢
  generalize b.mdist c = dbc at hbc ⊢
  generalize a.mdist c = dac at hac ⊢
  generalize |a.x - b.x| = p1 at hab n1 b1 s1 t1 z1
  generalize |a.y - b.y| = p2 at hab n2 b2 s2 t2 z2
  generalize |b.x - a.x| = p3 at hba s1
  generalize |b.y - a.y| = p4 at hba s2
  generalize |b.x - c.x| = p5 at hbc n3 b3 t1
  generalize |b.y - c.y| = p6 at hbc n4 b4 t2
  generalize |a.x - c.x| = p7 at hac t1
  generalize |a.y - c.y| = p8 at hac t2
  have hr : wrapInt32 (dab + dbc) = dab + dbc :=
    wrapInt32_of_isInt32 _ ⟨by omega, by omega⟩
  refine ⟨by omega, ?_, by omega, by omega, hr⟩
  rw [← z1, ← z2]
  omega

/-- Witness for C3 with cells at the corners of the coordinate range. -/
theorem GCell_mdist_manhattan_metric_witness :
    (GCell.mk (-32768) 32767).mdist (GCell.mk 32767 (-32768))
      = |(GCell.mk (-32768) 32767).x - (GCell.mk 32767 (-32768)).x|
        + |(GCell.mk (-32768) 32767).y - (GCell.mk 32767 (-32768)).y|
    ∧ 0 ≤ (GCell.mk (-32768) 32767).mdist (GCell.mk 32767 (-32768))
    ∧ ((GCell.mk (-32768) 32767).mdist (GCell.mk 32767 (-32768)) = 0
        ↔ (GCell.mk (-32768) 32767).eq (GCell.mk 32767 (-32768)) = true)
    ∧ (GCell.mk (-32768) 32767).mdist (GCell.mk 32767 (-32768))
        = (GCell.mk 32767 (-32768)).mdist (GCell.mk (-32768) 32767)
    ∧ (GCell.mk (-32768) 32767).mdist (GCell.mk 5 (-7))
        ≤ (GCell.mk (-32768) 32767).mdist (GCell.mk 32767 (-32768))
          + (GCell.mk 32767 (-32768)).mdist (GCell.mk 5 (-7))
    ∧ wrapInt32 ((GCell.mk (-32768) 32767).mdist (GCell.mk 32767 (-32768))
          + (GCell.mk 32767 (-32768)).mdist (GCell.mk 5 (-7)))
        = (GCell.mk (-32768) 32767).mdist (GCell.mk 32767 (-32768))
          + (GCell.mk 32767 (-32768)).mdist (GCell.mk 5 (-7)) :=
  GCell_mdist_manhattan_metric (GCell.mk (-32768) 32767) (GCell.mk 32767 (-32768))
    (GCell.mk 5 (-7)) (by decide) (by decide) (by decide)

/-! ### The GBox invariant -/

/-- C5 (amended): a box built by the default constructor, by the
two-argument constructor, or by the four-argument constructor with
`x0 <= x1` and `y0 <= y1`, and then extended any number of times, as well as
a box built by any constructor and extended at least once, is the unset
sentinel or has `x0 <= x1` and `y0 <= y1`. -/
theorem GBox_invariant_of_ordered_args_or_extended (k : GBox.Ctor) (ps : List GCell)
    (h : k.argsOrdered ∨ ps ≠ []) :
    (GBox.extendAll k.build ps).isUnset ∨ (GBox.extendAll k.build ps).ordered := by
  cases ps with
  | nil =>
    rcases h with h | h
    · cases k with
      | unset => left; decide
      | point x y => right; exact ⟨le_refl _, le_refl _⟩
      | corners x0 y0 x1 y1 => right; exact h
    · exact absurd rfl h
  | cons p ps =>
    right
    have hc := GBox.extendAll_contains (p :: ps) k.build p (List.mem_cons_self _ _)
    unfold GBox.contains at hc
    unfold GBox.ordered
    omega

/-- Witness for C5 (amended): a four-argument box with swapped corners,
extended once. -/
theorem GBox_invariant_of_ordered_args_or_extended_witness :
    (GBox.extendAll (GBox.Ctor.corners 5 0 3 0).build [GCell.mk 9 9]).isUnset
    ∨ (GBox.extendAll (GBox.Ctor.corners 5 0 3 0).build [GCell.mk 9 9]).ordered :=
  GBox_invariant_of_ordered_args_or_extended (GBox.Ctor.corners 5 0 3 0) [GCell.mk 9 9]
    (Or.inr (by simp))

/-- C5 as stated fails: the four-argument constructor called with in-range
arguments `(5, 0, 3, 0)` and followed by no `extend` call gives a box that is
neither the unset sentinel nor ordered. -/
theorem GBox_invariant_counterexample :
    (GBox.Ctor.corners 5 0 3 0).wf
    ∧ ¬ ((GBox.extendAll (GBox.Ctor.corners 5 0 3 0).build []).isUnset
        ∨ (GBox.extendAll (GBox.Ctor.corners 5 0 3 0).build []).ordered) := by
  decide

/-! ### within_tol_of_line -/

/-- The overshoot sums of `within_tol_of_line` do not wrap around. -/
theorem wrapInt32_delta (d lo hi : Int) (hd0 : 0 ≤ d) (hd : d ≤ 65535)
    (hlo : isInt16 lo) (hhi : isInt16 hi) :
    wrapInt32 (d + wrapInt32 (hi - lo)) = d + (hi - lo) := by
  unfold isInt16 at hlo hhi
  rw [wrapInt32_of_isInt32 (hi - lo) (by unfold isInt32; omega)]
  exact wrapInt32_of_isInt32 _ (by unfold isInt32; omega)

/-- A line whose ends differ in both coordinates fails the assertion. -/
theorem InFlightArc.within_tol_of_line_diag (line0 line1 actual : GCell) (xtol ytol : Int)
    (hx : line1.x ≠ line0.x) (hy : line1.y ≠ line0.y) :
    InFlightArc.within_tol_of_line line0 line1 actual xtol ytol = none := by
  unfold InFlightArc.within_tol_of_line
  simp [hx, hy]

/-- The result for a horizontal line (equal `y` at both ends), with the
`int` arithmetic on the coordinates resolved. -/
theorem InFlightArc.within_tol_of_line_horiz (line0 line1 actual : GCell) (xtol ytol : Int)
    (h0 : line0.wf) (h1 : line1.wf) (ha : actual.wf) (hy : line1.y = line0.y) :
    InFlightArc.within_tol_of_line line0 line1 actual xtol ytol =
      if (line1.x > line0.x ∧ actual.x < wrapInt32 (line0.x - xtol))
          ∨ (line1.x < line0.x ∧ actual.x > wrapInt32 (line0.x + xtol)) then some (-2)
      else if |actual.y - line0.y| > ytol then some (-1)
      else if actual.x < min line0.x line1.x then
        some (|actual.y - line0.y| + (min line0.x line1.x - actual.x))
      else if actual.x > max line0.x line1.x then
        some (|actual.y - line0.y| + (actual.x - max line0.x line1.x))
      else some |actual.y - line0.y| := by
  have dy := absInt32_sub actual.y line0.y ha.2 h0.2
  have bY := abs_sub_int16_le actual.y line0.y ha.2 h0.2
  have ny := abs_nonneg (actual.y - line0.y)
  have hmin : isInt16 (min line0.x line1.x) := by
    have a1 := h0.1
    have a3 := h1.1
    unfold isInt16 at a1 a3 ⊢
    omega
  have hmax : isInt16 (max line0.x line1.x) := by
    have a1 := h0.1
    have a3 := h1.1
    unfold isInt16 at a1 a3 ⊢
    omega
  unfold InFlightArc.within_tol_of_line
  simp only [hy, beq_self_eq_true, Bool.not_true, Bool.false_and, if_true, dy,
    wrapInt32_delta _ _ _ ny bY ha.1 hmin, wrapInt32_delta _ _ _ ny bY hmax ha.1]
  rfl

/-- The result for a vertical line (equal `x`, different `y` at the ends),
with the `int` arithmetic on the coordinates resolved. -/
theorem InFlightArc.within_tol_of_line_vert (line0 line1 actual : GCell) (xtol ytol : Int)
    (h0 : line0.wf) (h1 : line1.wf) (ha : actual.wf)
    (hy : line1.y ≠ line0.y) (hx : line1.x = line0.x) :
    InFlightArc.within_tol_of_line line0 line1 actual xtol ytol =
      if (line1.y > line0.y ∧ actual.y < wrapInt32 (line0.y - ytol))
          ∨ (line1.y < line0.y ∧ actual.y > wrapInt32 (line0.y + ytol)) then some (-2)
      else if |actual.x - line0.x| > xtol then some (-1)
      else if actual.y < min line0.y line1.y then
        some (|actual.x - line0.x| + (min line0.y line1.y - actual.y))
      else if actual.y > max line0.y line1.y then
        some (|actual.x - line0.x| + (actual.y - max line0.y line1.y))
      else some |actual.x - line0.x| := by
  have dx := absInt32_sub actual.x line0.x ha.1 h0.1
  have bx := abs_sub_int16_le actual.x line0.x ha.1 h0.1
  have nx := abs_nonneg (actual.x - line0.x)
  have hmin : isInt16 (min line0.y line1.y) := by
    have a1 := h0.2
    have a3 := h1.2
    unfold isInt16 at a1 a3 ⊢
    omega
  have hmax : isInt16 (max line0.y line1.y) := by
    have a1 := h0.2
    have a3 := h1.2
    unfold isInt16 at a1 a3 ⊢
    omega
  have hyb : (line1.y == line0.y) = false := by simp [hy]
  unfold InFlightArc.within_tol_of_line
  simp only [hyb, hx, beq_self_eq_true, Bool.not_true, Bool.not_false, Bool.and_false,
    Bool.true_and, if_true, if_false, dx, Bool.false_eq_true,
    wrapInt32_delta _ _ _ nx bx ha.2 hmin, wrapInt32_delta _ _ _ nx bx hmax ha.2]

/-- C6: `within_tol_of_line` fails its assertion exactly when `line0` and
`line1` differ in both `x` and `y`; for every pair sharing an `x` or a `y`
(`line0 == line1` included) it returns a result that is `-2`, `-1` or
non-negative. -/
theorem within_tol_of_line_rejects_exactly_diagonals (line0 line1 actual : GCell)
    (xtol ytol : Int) (h0 : line0.wf) (h1 : line1.wf) (ha : actual.wf) :
    (InFlightArc.within_tol_of_line line0 line1 actual xtol ytol = none
        ↔ (line0.x ≠ line1.x ∧ line0.y ≠ line1.y))
    ∧ ((line0.x = line1.x ∨ line0.y = line1.y) →
        ∃ r : Int, InFlightArc.within_tol_of_line line0 line1 actual xtol ytol = some r
          ∧ (r = -2 ∨ r = -1 ∨ 0 ≤ r)) := by
  have ny := abs_nonneg (actual.y - line0.y)
  have nx := abs_nonneg (actual.x - line0.x)
  by_cases hy : line1.y = line0.y
  · rw [InFlightArc.within_tol_of_line_horiz line0 line1 actual xtol ytol h0 h1 ha hy]
    constructor
    · constructor
      · intro h
        split_ifs at h
      · intro h
        exact absurd hy.symm h.2
    · intro _
      split_ifs
      · exact ⟨_, rfl, Or.inl rfl⟩
      · exact ⟨_, rfl, Or.inr (Or.inl rfl)⟩
      · exact ⟨_, rfl, Or.inr (Or.inr (by omega))⟩
      · exact ⟨_, rfl, Or.inr (Or.inr (by omega))⟩
      · exact ⟨_, rfl, Or.inr (Or.inr ny)⟩
  · by_cases hx : line1.x = line0.x
    · rw [InFlightArc.within_tol_of_line_vert line0 line1 actual xtol ytol h0 h1 ha hy hx]
      constructor
      · constructor
        · intro h
          split_ifs at h
        · intro h
          exact absurd hx.symm h.1
      · intro _
        split_ifs
        · exact ⟨_, rfl, Or.inl rfl⟩
        · exact ⟨_, rfl, Or.inr (Or.inl rfl)⟩
        · exact ⟨_, rfl, Or.inr (Or.inr (by omega))⟩
        · exact ⟨_, rfl, Or.inr (Or.inr (by omega))⟩
        · exact ⟨_, rfl, Or.inr (Or.inr nx)⟩
    · rw [InFlightArc.within_tol_of_line_diag line0 line1 actual xtol ytol hx hy]
      constructor
      · constructor
        · intro _
          exact ⟨fun h => hx h.symm, fun h => hy h.symm⟩
        · intro _
          rfl
      · rintro (h | h)
        · exact absurd h.symm hx
        · exact absurd h.symm hy

/-- Witness for C6: a horizontal line, the actual cell past its far end. -/
theorem within_tol_of_line_rejects_exactly_diagonals_witness :
    (InFlightArc.within_tol_of_line (GCell.mk 0 0) (GCell.mk 5 0) (GCell.mk 7 1) 1 1 = none
        ↔ ((GCell.mk 0 0).x ≠ (GCell.mk 5 0).x ∧ (GCell.mk 0 0).y ≠ (GCell.mk 5 0).y))
    ∧ (((GCell.mk 0 0).x = (GCell.mk 5 0).x ∨ (GCell.mk 0 0).y = (GCell.mk 5 0).y) →
        ∃ r : Int,
          InFlightArc.within_tol_of_line (GCell.mk 0 0) (GCell.mk 5 0) (GCell.mk 7 1) 1 1 = some r
          ∧ (r = -2 ∨ r = -1 ∨ 0 ≤ r)) :=
  within_tol_of_line_rejects_exactly_diagonals (GCell.mk 0 0) (GCell.mk 5 0) (GCell.mk 7 1) 1 1
    (by decide) (by decide) (by decide)

/-! ### BaseFelineAPI -/

theorem idict.mem_register {K : Type} [DecidableEq K] (d : idict K) (k w : K) :
    w ∈ (d.register k).database ↔ w ∈ d.database ∨ w = k := by
  unfold idict.register
  split_ifs with h
  · constructor
    · intro hw; exact Or.inl hw
    · rintro (hw | rfl)
      · exact hw
      · exact h
  · simp

theorem idict.mem_registerAll {K : Type} [DecidableEq K] (ks : List K) (d : idict K) (w : K) :
    w ∈ (d.registerAll ks).database ↔ w ∈ d.database ∨ w ∈ ks := by
  induction ks generalizing d with
  | nil => simp [idict.registerAll]
  | cons k ks ih =>
    have step : d.registerAll (k :: ks) = (d.register k).registerAll ks := rfl
    rw [step, ih, idict.mem_register, List.mem_cons]
    tauto

/-- C7: when the registered wires number fewer than `2^31` (so that the
count fits `int32_t`), every wire registered in `wire2idx` has a
`flatWireIndex` that is at least `0` and less than `flatWireSize()`, and two
registered wires with the same index are the same wire. -/
theorem flatWireIndex_below_flatWireSize {WireId : Type} [DecidableEq WireId]
    (api : BaseFelineAPI WireId) (wires : List WireId)
    (hreg : api.wire2idx = idict.registerAll idict.empty wires)
    (hsize : api.wire2idx.size < 2147483648) :
    (∀ w ∈ wires, ∃ i : Int, api.flatWireIndex w = some i ∧ 0 ≤ i ∧ i < api.flatWireSize)
    ∧ (∀ w1 ∈ wires, ∀ w2 ∈ wires, api.flatWireIndex w1 = api.flatWireIndex w2 → w1 = w2) := by
  have hmem : ∀ w ∈ wires, w ∈ api.wire2idx.database := by
    intro w hw
    rw [hreg, idict.mem_registerAll]
    exact Or.inr hw
  have hidx : ∀ w ∈ wires,
      api.flatWireIndex w = some ((api.wire2idx.database.indexOf w : Nat) : Int) := by
    intro w hw
    have hlt : api.wire2idx.database.indexOf w < api.wire2idx.database.length :=
      List.indexOf_lt_length.mpr (hmem w hw)
    unfold idict.size at hsize
    unfold BaseFelineAPI.flatWireIndex idict.«at»
    rw [if_pos (hmem w hw), wrapInt32_of_isInt32 _ (by unfold isInt32; omega)]
  have hsz : api.flatWireSize = (api.wire2idx.database.length : Int) := by
    unfold idict.size at hsize
    unfold BaseFelineAPI.flatWireSize idict.size
    exact wrapInt32_of_isInt32 _ (by unfold isInt32; omega)
  constructor
  · intro w hw
    have hlt : api.wire2idx.database.indexOf w < api.wire2idx.database.length :=
      List.indexOf_lt_length.mpr (hmem w hw)
    refine ⟨_, hidx w hw, by omega, ?_⟩
    rw [hsz]
    omega
  · intro w1 h1 w2 h2 he
    rw [hidx w1 h1, hidx w2 h2] at he
    have he' : api.wire2idx.database.indexOf w1 = api.wire2idx.database.indexOf w2 := by
      have hi := Option.some.inj he
      exact_mod_cast hi
    exact (List.indexOf_inj (hmem w1 h1) (hmem w2 h2)).mp he'

/-- Witness for C7: three wires, one of them registered twice. -/
theorem flatWireIndex_below_flatWireSize_witness :
    (∀ w ∈ [7, 3, 7, 9], ∃ i : Int,
        (BaseFelineAPI.mk (fun _ _ => ArcBounds.mk 0 0 0 0)
          (idict.registerAll idict.empty [7, 3, 7, 9]) : BaseFelineAPI Nat).flatWireIndex w
          = some i
        ∧ 0 ≤ i
        ∧ i < (BaseFelineAPI.mk (fun _ _ => ArcBounds.mk 0 0 0 0)
          (idict.registerAll idict.empty [7, 3, 7, 9]) : BaseFelineAPI Nat).flatWireSize)
    ∧ (∀ w1 ∈ [7, 3, 7, 9], ∀ w2 ∈ [7, 3, 7, 9],
        (BaseFelineAPI.mk (fun _ _ => ArcBounds.mk 0 0 0 0)
          (idict.registerAll idict.empty [7, 3, 7, 9]) : BaseFelineAPI Nat).flatWireIndex w1
        = (BaseFelineAPI.mk (fun _ _ => ArcBounds.mk 0 0 0 0)
          (idict.registerAll idict.empty [7, 3, 7, 9]) : BaseFelineAPI Nat).flatWireIndex w2
        → w1 = w2) :=
  flatWireIndex_below_flatWireSize
    (BaseFelineAPI.mk (fun _ _ => ArcBounds.mk 0 0 0 0)
      (idict.registerAll idict.empty [7, 3, 7, 9]) : BaseFelineAPI Nat)
    [7, 3, 7, 9] rfl (by decide)

/-- The `int` division by two, truncating towards zero. -/
theorem tdiv_two (v : Int) : Int.tdiv v 2 = if 0 ≤ v then v / 2 else -((-v) / 2) := by
  split_ifs with h
  · exact Int.tdiv_eq_ediv h (by decide)
  · have hv : v = -(-v) := by omega
    rw [hv, Int.neg_tdiv, Int.tdiv_eq_ediv (by omega) (by decide)]
    simp

/-- The truncating midpoint of two `int16_t` values, computed in `int` and
narrowed to `int16_t`, is not wrapped and lies between the two values. -/
theorem midpoint_between (lo hi : Int) (hlo : isInt16 lo) (hhi : isInt16 hi) (h : lo ≤ hi) :
    wrapInt16 (Int.tdiv (wrapInt32 (lo + hi)) 2) = Int.tdiv (lo + hi) 2
    ∧ lo ≤ Int.tdiv (lo + hi) 2 ∧ Int.tdiv (lo + hi) 2 ≤ hi := by
  unfold isInt16 at hlo hhi
  rw [wrapInt32_of_isInt32 (lo + hi) (by unfold isInt32; omega), tdiv_two]
  split_ifs with hs
  · refine ⟨wrapInt16_of_isInt16 _ (by unfold isInt16; omega), by omega, by omega⟩
  · refine ⟨wrapInt16_of_isInt16 _ (by unfold isInt16; omega), by omega, by omega⟩

/-- C8: for a wire whose route bounding box has `x0 <= x1`, `y0 <= y1` and
all four coordinates in the signed 16-bit range, `approxWireLoc` returns the
truncating integer midpoint `((x0+x1)/2, (y0+y1)/2)`, and that cell satisfies
`x0 <= x <= x1` and `y0 <= y <= y1`, negative coordinates included. -/
theorem approxWireLoc_on_wire {WireId : Type} (api : BaseFelineAPI WireId) (wire : WireId)
    (hx0 : isInt16 (api.getRouteBoundingBox wire wire).x0)
    (hy0 : isInt16 (api.getRouteBoundingBox wire wire).y0)
    (hx1 : isInt16 (api.getRouteBoundingBox wire wire).x1)
    (hy1 : isInt16 (api.getRouteBoundingBox wire wire).y1)
    (hx : (api.getRouteBoundingBox wire wire).x0 ≤ (api.getRouteBoundingBox wire wire).x1)
    (hy : (api.getRouteBoundingBox wire wire).y0 ≤ (api.getRouteBoundingBox wire wire).y1) :
    (api.approxWireLoc wire).x
        = Int.tdiv ((api.getRouteBoundingBox wire wire).x0
            + (api.getRouteBoundingBox wire wire).x1) 2
    ∧ (api.approxWireLoc wire).y
        = Int.tdiv ((api.getRouteBoundingBox wire wire).y0
            + (api.getRouteBoundingBox wire wire).y1) 2
    ∧ (api.getRouteBoundingBox wire wire).x0 ≤ (api.approxWireLoc wire).x
    ∧ (api.approxWireLoc wire).x ≤ (api.getRouteBoundingBox wire wire).x1
    ∧ (api.getRouteBoundingBox wire wire).y0 ≤ (api.approxWireLoc wire).y
    ∧ (api.approxWireLoc wire).y ≤ (api.getRouteBoundingBox wire wire).y1 := by
  obtain ⟨ex, lx, ux⟩ := midpoint_between _ _ hx0 hx1 hx
  obtain ⟨ey, ly, uy⟩ := midpoint_between _ _ hy0 hy1 hy
  have vx : (api.approxWireLoc wire).x
      = wrapInt16 (Int.tdiv (wrapInt32 ((api.getRouteBoundingBox wire wire).x0
          + (api.getRouteBoundingBox wire wire).x1)) 2) := rfl
  have vy : (api.approxWireLoc wire).y
      = wrapInt16 (Int.tdiv (wrapInt32 ((api.getRouteBoundingBox wire wire).y0
          + (api.getRouteBoundingBox wire wire).y1)) 2) := rfl
  rw [vx, vy, ex, ey]
  exact ⟨rfl, rfl, lx, ux, ly, uy⟩

/-- Witness for C8: a bounding box with negative coordinates and an odd sum,
where truncation rounds towards zero. -/
theorem approxWireLoc_on_wire_witness :
    ((BaseFelineAPI.mk (fun _ _ => ArcBounds.mk (-3) (-8) (-2) 5) idict.empty :
        BaseFelineAPI Nat).approxWireLoc 0).x = Int.tdiv ((-3) + (-2)) 2
    ∧ ((BaseFelineAPI.mk (fun _ _ => ArcBounds.mk (-3) (-8) (-2) 5) idict.empty :
        BaseFelineAPI Nat).approxWireLoc 0).y = Int.tdiv ((-8) + 5) 2
    ∧ (-3 : Int) ≤ ((BaseFelineAPI.mk (fun _ _ => ArcBounds.mk (-3) (-8) (-2) 5) idict.empty :
        BaseFelineAPI Nat).approxWireLoc 0).x
    ∧ ((BaseFelineAPI.mk (fun _ _ => ArcBounds.mk (-3) (-8) (-2) 5) idict.empty :
        BaseFelineAPI Nat).approxWireLoc 0).x ≤ -2
    ∧ (-8 : Int) ≤ ((BaseFelineAPI.mk (fun _ _ => ArcBounds.mk (-3) (-8) (-2) 5) idict.empty :
        BaseFelineAPI Nat).approxWireLoc 0).y
    ∧ ((BaseFelineAPI.mk (fun _ _ => ArcBounds.mk (-3) (-8) (-2) 5) idict.empty :
        BaseFelineAPI Nat).approxWireLoc 0).y ≤ 5 :=
  approxWireLoc_on_wire
    (BaseFelineAPI.mk (fun _ _ => ArcBounds.mk (-3) (-8) (-2) 5) idict.empty : BaseFelineAPI Nat)
    0 (by decide) (by decide) (by decide) (by decide) (by decide) (by decide)

/-! ### GCellSet -/

theorem GCell.lt_iff (p q : GCell) :
    p.lt q = true ↔ (p.y < q.y ∨ (p.y = q.y ∧ p.x < q.x)) := by
  simp [GCell.lt]

theorem GCell.eq_iff (p q : GCell) : p.eq q = true ↔ p = q := by
  cases p
  cases q
  simp [GCell.eq]

theorem GCell.lt_asymm (p q : GCell) (h : p.lt q = true) : ¬ q.lt p = true := by
  rw [GCell.lt_iff] at h ⊢
  omega

theorem GCell.lt_trans (p q r : GCell) (h1 : p.lt q = true) (h2 : q.lt r = true) :
    p.lt r = true := by
  rw [GCell.lt_iff] at h1 h2 ⊢
  omega

theorem GCell.lt_of_not_lt_of_ne (p q : GCell) (h1 : ¬ p.lt q = true) (h2 : ¬ p.eq q = true) :
    q.lt p = true := by
  have hne : ¬ (p.x = q.x ∧ p.y = q.y) := by
    intro h
    apply h2
    rw [GCell.eq_iff]
    cases p
    cases q
    simp only [GCell.mk.injEq]
    exact h
  rw [GCell.lt_iff] at h1 ⊢
  omega

theorem GCell.le_iff (p q : GCell) : p.le q = true ↔ (p = q ∨ p.lt q = true) := by
  unfold GCell.le
  rw [Bool.or_eq_true, GCell.eq_iff]

theorem GCellSet.mem_insertCell (c x : GCell) (l : List GCell) :
    x ∈ GCellSet.insertCell c l ↔ x = c ∨ x ∈ l := by
  induction l with
  | nil => simp [GCellSet.insertCell]
  | cons d ds ih =>
    unfold GCellSet.insertCell
    split_ifs with h1 h2
    · simp
    · have hcd : c = d := (GCell.eq_iff c d).mp h2
      subst hcd
      simp
    · rw [List.mem_cons, ih, List.mem_cons]
      tauto

theorem GCellSet.insertCell_increasing (c : GCell) (l : List GCell)
    (hl : l.Pairwise (fun a b => a.lt b = true)) :
    (GCellSet.insertCell c l).Pairwise (fun a b => a.lt b = true) := by
  induction l with
  | nil => simp [GCellSet.insertCell]
  | cons d ds ih =>
    obtain ⟨hd, hds⟩ := List.pairwise_cons.mp hl
    unfold GCellSet.insertCell
    split_ifs with h1 h2
    · refine List.pairwise_cons.mpr ⟨?_, hl⟩
      intro e he
      rcases List.mem_cons.mp he with rfl | he
      · exact h1
      · exact GCell.lt_trans _ _ _ h1 (hd e he)
    · exact hl
    · refine List.pairwise_cons.mpr ⟨?_, ih hds⟩
      intro e he
      rcases (GCellSet.mem_insertCell c e ds).mp he with rfl | he
      · exact GCell.lt_of_not_lt_of_ne _ _ h1 h2
      · exact hd e he

theorem GCellSet.pushAll_cells (cs : List GCell) (s : GCellSet) :
    (s.pushAll cs).cells = s.cells ++ cs := by
  induction cs generalizing s with
  | nil => simp [GCellSet.pushAll]
  | cons c cs ih =>
    have step : s.pushAll (c :: cs) = (s.push c).pushAll cs := rfl
    rw [step, ih]
    simp [GCellSet.push]

theorem GCellSet.do_sort_increasing (s : GCellSet) :
    s.do_sort.cells.Pairwise (fun a b => a.lt b = true) := by
  unfold GCellSet.do_sort
  simp only
  induction s.cells with
  | nil => simp
  | cons c cs ih => exact GCellSet.insertCell_increasing c _ ih

theorem GCellSet.mem_do_sort (s : GCellSet) (x : GCell) :
    x ∈ s.do_sort.cells ↔ x ∈ s.cells := by
  unfold GCellSet.do_sort
  simp only
  induction s.cells with
  | nil => simp
  | cons c cs ih =>
    rw [List.foldr_cons, GCellSet.mem_insertCell, ih, List.mem_cons]

/-- In a list that is pairwise related by an asymmetric relation, `find?`
returns the element satisfying the predicate that is related to every other
such element. -/
theorem find_first_of_pairwise {r : GCell → GCell → Prop} (hasym : ∀ a b, r a b → ¬ r b a)
    (p : GCell → Bool) (l : List GCell) (hl : l.Pairwise r) (d : GCell) :
    l.find? p = some d ↔ (d ∈ l ∧ p d = true ∧ ∀ e ∈ l, p e = true → e = d ∨ r d e) := by
  rw [List.find?_eq_some]
  constructor
  · rintro ⟨hp, pre, post, hsplit, hpre⟩
    subst hsplit
    refine ⟨by simp, hp, ?_⟩
    intro e he hpe
    rcases List.mem_append.mp he with he | he
    · have := hpre e he
      simp [hpe] at this
    · rcases List.mem_cons.mp he with rfl | he
      · exact Or.inl rfl
      · right
        have h2 := (List.pairwise_append.mp hl).2.1
        exact (List.pairwise_cons.mp h2).1 e he
  · rintro ⟨hd, hp, hmin⟩
    obtain ⟨pre, post, hsplit⟩ := List.append_of_mem hd
    subst hsplit
    refine ⟨hp, pre, post, rfl, ?_⟩
    intro a ha
    have had : r a d := (List.pairwise_append.mp hl).2.2 a ha d (List.mem_cons_self _ _)
    cases hpa : p a with
    | false => rfl
    | true =>
      exfalso
      rcases hmin a (List.mem_append_left _ ha) hpa with rfl | hda
      · exact hasym _ _ had had
      · exact hasym _ _ had hda

theorem GCellSet.next_cell_last (s : GCellSet)
    (hs : s.cells.Pairwise (fun a b => a.lt b = true)) (pre : List GCell) (c : GCell)
    (hsplit : s.cells = pre ++ [c]) : s.next_cell c = none := by
  unfold GCellSet.next_cell
  rw [List.find?_eq_none]
  intro x hx
  rw [hsplit] at hx hs
  rcases List.mem_append.mp hx with hx | hx
  · have hxc : x.lt c = true := (List.pairwise_append.mp hs).2.2 x hx c (by simp)
    exact GCell.lt_asymm _ _ hxc
  · have hxc : x = c := by simpa using hx
    subst hxc
    intro h
    exact GCell.lt_asymm _ _ h h

theorem GCellSet.next_cell_succ (s : GCellSet)
    (hs : s.cells.Pairwise (fun a b => a.lt b = true)) (pre rest : List GCell) (c d : GCell)
    (hsplit : s.cells = pre ++ c :: d :: rest) : s.next_cell c = some d := by
  unfold GCellSet.next_cell
  rw [List.find?_eq_some]
  rw [hsplit] at hs
  obtain ⟨_, hpost, hcross⟩ := List.pairwise_append.mp hs
  have hcd : c.lt d = true := (List.pairwise_cons.mp hpost).1 d (List.mem_cons_self _ _)
  refine ⟨hcd, pre ++ [c], rest, by rw [hsplit]; simp, ?_⟩
  intro a ha
  have hnot : ¬ c.lt a = true := by
    rcases List.mem_append.mp ha with ha | ha
    · exact GCell.lt_asymm _ _ (hcross a ha c (List.mem_cons_self _ _))
    · have hac : a = c := by simpa using ha
      subst hac
      intro h
      exact GCell.lt_asymm _ _ h h
  simpa using hnot

/-- From any cell of a sorted set the walk visits exactly the cells from
there to the end, and stops because `next_cell` finds no further cell. -/
theorem GCellSet.walk_suffix (s : GCellSet)
    (hs : s.cells.Pairwise (fun a b => a.lt b = true)) (rest : List GCell) :
    ∀ (pre : List GCell) (c : GCell) (fuel : Nat), s.cells = pre ++ c :: rest →
      rest.length < fuel → s.walk fuel c = some (c :: rest) := by
  induction rest with
  | nil =>
    intro pre c fuel hsplit hfuel
    cases fuel with
    | zero => omega
    | succ n =>
      unfold GCellSet.walk
      rw [GCellSet.next_cell_last s hs pre c hsplit]
  | cons d rest ih =>
    intro pre c fuel hsplit hfuel
    cases fuel with
    | zero => omega
    | succ n =>
      have hn : rest.length < n := by
        simp only [List.length_cons] at hfuel
        omega
      unfold GCellSet.walk
      rw [GCellSet.next_cell_succ s hs pre rest c d hsplit]
      simp only
      rw [ih (pre ++ [c]) d n (by rw [hsplit]; simp) hn]
      rfl

/-- C9: after pushing any finite list of cells into an empty `GCellSet` and
sorting, the cell sequence is strictly increasing in the (y, then x) order
and holds exactly the pushed cells; the walk by `next_cell` from the minimum
cell ends and visits exactly that sequence, so every distinct pushed cell
once and in increasing order; `next_cell` returns the least cell of the set
above its argument and `prev_cell` the greatest one below it, and either
returns no cell exactly when there is none. -/
theorem GCellSet_sort_walk_round_trip (pushed : List GCell) :
    (GCellSet.pushedAndSorted pushed).cells.Pairwise (fun a b => a.lt b = true)
    ∧ (∀ c : GCell, c ∈ (GCellSet.pushedAndSorted pushed).cells ↔ c ∈ pushed)
    ∧ (GCellSet.pushedAndSorted pushed).dirty = false
    ∧ (∀ m ∈ (GCellSet.pushedAndSorted pushed).cells.head?, ∀ c ∈ pushed, m.le c = true)
    ∧ (∀ fuel : Nat, (GCellSet.pushedAndSorted pushed).cells.length ≤ fuel →
        (GCellSet.pushedAndSorted pushed).walkFromMin fuel
          = some (GCellSet.pushedAndSorted pushed).cells)
    ∧ (∀ c d : GCell, (GCellSet.pushedAndSorted pushed).next_cell c = some d ↔
        (d ∈ pushed ∧ c.lt d = true ∧ ∀ e ∈ pushed, c.lt e = true → d.le e = true))
    ∧ (∀ c : GCell, (GCellSet.pushedAndSorted pushed).next_cell c = none ↔
        ∀ e ∈ pushed, c.lt e = false)
    ∧ (∀ c d : GCell, (GCellSet.pushedAndSorted pushed).prev_cell c = some d ↔
        (d ∈ pushed ∧ d.lt c = true ∧ ∀ e ∈ pushed, e.lt c = true → e.le d = true))
    ∧ (∀ c : GCell, (GCellSet.pushedAndSorted pushed).prev_cell c = none ↔
        ∀ e ∈ pushed, e.lt c = false) := by
  have hs : (GCellSet.pushedAndSorted pushed).cells.Pairwise (fun a b => a.lt b = true) :=
    GCellSet.do_sort_increasing _
  have hmem : ∀ c : GCell, c ∈ (GCellSet.pushedAndSorted pushed).cells ↔ c ∈ pushed := by
    intro c
    unfold GCellSet.pushedAndSorted
    rw [GCellSet.mem_do_sort, GCellSet.pushAll_cells]
    simp [GCellSet.empty]
  have hrev : (GCellSet.pushedAndSorted pushed).cells.reverse.Pairwise
      (fun a b => b.lt a = true) := List.pairwise_reverse.mpr hs
  refine ⟨hs, hmem, rfl, ?_, ?_, ?_, ?_, ?_, ?_⟩
  · intro m hm c hc
    have hc' := (hmem c).mpr hc
    cases hcells : (GCellSet.pushedAndSorted pushed).cells with
    | nil => rw [hcells] at hm; cases hm
    | cons m' rest =>
      rw [hcells] at hm hc' hs
      have hmm : m' = m := by simpa using hm
      subst hmm
      rw [GCell.le_iff]
      rcases List.mem_cons.mp hc' with rfl | hc'
      · exact Or.inl rfl
      · exact Or.inr ((List.pairwise_cons.mp hs).1 c hc')
  · intro fuel hfuel
    unfold GCellSet.walkFromMin
    cases hcells : (GCellSet.pushedAndSorted pushed).cells with
    | nil => rfl
    | cons m rest =>
      rw [hcells] at hfuel
      simp only [List.length_cons] at hfuel
      exact GCellSet.walk_suffix _ hs rest [] m fuel (by rw [hcells]; rfl) (by omega)
  · intro c d
    unfold GCellSet.next_cell
    rw [find_first_of_pairwise (fun a b h => GCell.lt_asymm a b h) _ _ hs d, hmem]
    constructor
    · rintro ⟨h1, h2, h3⟩
      refine ⟨h1, h2, ?_⟩
      intro e he hce
      rw [GCell.le_iff]
      rcases h3 e ((hmem e).mpr he) hce with h | h
      · exact Or.inl h.symm
      · exact Or.inr h
    · rintro ⟨h1, h2, h3⟩
      refine ⟨h1, h2, ?_⟩
      intro e he hce
      rcases (GCell.le_iff d e).mp (h3 e ((hmem e).mp he) hce) with h | h
      · exact Or.inl h.symm
      · exact Or.inr h
  · intro c
    unfold GCellSet.next_cell
    rw [List.find?_eq_none]
    constructor
    · intro h e he
      have := h e ((hmem e).mpr he)
      simpa using this
    · intro h e he
      have := h e ((hmem e).mp he)
      simp [this]
  · intro c d
    unfold GCellSet.prev_cell
    rw [find_first_of_pairwise (fun a b h => GCell.lt_asymm b a h) _ _ hrev d,
      List.mem_reverse, hmem]
    constructor
    · rintro ⟨h1, h2, h3⟩
      refine ⟨h1, h2, ?_⟩
      intro e he hec
      rw [GCell.le_iff]
      exact h3 e (List.mem_reverse.mpr ((hmem e).mpr he)) hec
    · rintro ⟨h1, h2, h3⟩
      refine ⟨h1, h2, ?_⟩
      intro e he hec
      exact (GCell.le_iff e d).mp (h3 e ((hmem e).mp (List.mem_reverse.mp he)) hec)
  · intro c
    unfold GCellSet.prev_cell
    rw [List.find?_eq_none]
    constructor
    · intro h e he
      have := h e (List.mem_reverse.mpr ((hmem e).mpr he))
      simpa using this
    · intro h e he
      have := h e ((hmem e).mp (List.mem_reverse.mp he))
      simp [this]

/-! ### STree.steinerise_hvw -/

theorem STree.setUphill_source (t : STree) (k w : GCell) :
    (t.setUphill k w).source = t.source := rfl

theorem STree.mem_keys_setUphill (t : STree) (k w x : GCell) :
    x ∈ (t.setUphill k w).nodes.keys ↔ (x ∈ t.nodes.keys ∨ x = k) := by
  unfold STree.setUphill dict.set
  by_cases hk : k ∈ t.nodes.keys
  · simp only [hk, if_true]
    constructor
    · intro h; exact Or.inl h
    · rintro (h | h)
      · exact h
      · rw [h]; exact hk
  · simp only [hk, if_false, List.mem_append, List.mem_singleton]

theorem STree.get_setUphill_ne (t : STree) (k w x : GCell) (h : x ≠ k) :
    (t.setUphill k w).nodes.get x = t.nodes.get x := by
  unfold STree.setUphill dict.set
  simp only [h, if_false]

theorem STree.up_setUphill_ne (t : STree) (k w x : GCell) (h : x ≠ k) :
    (t.setUphill k w).up x = t.up x := by
  unfold STree.up
  rw [STree.get_setUphill_ne t k w x h]

theorem STree.up_setUphill_self (t : STree) (k w : GCell) :
    (t.setUphill k w).up k = w := by
  unfold STree.up STree.setUphill dict.set
  simp only [if_true]

theorem STree.port_count_setUphill_self (t : STree) (k w : GCell) :
    ((t.setUphill k w).nodes.get k).port_count
      = if k ∈ t.nodes.keys then (t.nodes.get k).port_count else 0 := by
  unfold STree.setUphill dict.set
  simp only [if_true]

/-! #### Chains to the source -/

theorem STree.Chain.mono {t : STree} {P Q : GCell → Prop} (h : ∀ x, P x → Q x)
    {k : GCell} {d : Nat} (hc : STree.Chain t P k d) : STree.Chain t Q k d := by
  induction hc with
  | source hp => exact STree.Chain.source (h _ hp)
  | step hp hs hk _ ih => exact STree.Chain.step (h _ hp) hs hk ih

/-- The number of steps of a chain is determined by the cell it starts at. -/
theorem STree.Chain.depth_unique {t : STree} {P Q : GCell → Prop} {k : GCell} {d d' : Nat}
    (hc : STree.Chain t P k d) (hc' : STree.Chain t Q k d') : d = d' := by
  induction hc generalizing d' with
  | source _ =>
    cases hc' with
    | source _ => rfl
    | step _ hs _ _ => exact absurd rfl hs
  | step _ hs _ _ ih =>
    cases hc' with
    | source _ => exact absurd rfl hs
    | step _ _ _ hrest => rw [ih hrest]

theorem STree.Chain.and {t : STree} {P Q : GCell → Prop} {k : GCell} {d : Nat}
    (hc : STree.Chain t P k d) (hc' : STree.Chain t Q k d) :
    STree.Chain t (fun x => P x ∧ Q x) k d := by
  induction hc with
  | source hp =>
    cases hc' with
    | source hq => exact STree.Chain.source ⟨hp, hq⟩
  | step hp hs hk _ ih =>
    cases hc' with
    | step hq _ _ hrest => exact STree.Chain.step ⟨hp, hq⟩ hs hk (ih hrest)

/-- The uphill cell of a node other than the source has a chain that is one
step shorter. -/
theorem STree.Chain.tail {t : STree} {P : GCell → Prop} {k : GCell} {d : Nat}
    (hc : STree.Chain t P k d) (hs : k ≠ t.source) :
    ∃ d' : Nat, d = d' + 1 ∧ STree.Chain t P (t.up k) d' := by
  cases hc with
  | source _ => exact absurd rfl hs
  | step _ _ _ hrest => exact ⟨_, rfl, hrest⟩

/-- A chain that avoids a cell is a chain of the tree in which that cell has
another uphill cell. -/
theorem STree.Chain.setUphill {t : STree} {P : GCell → Prop} (c w : GCell) {k : GCell}
    {d : Nat} (hc : STree.Chain t (fun x => x ≠ c ∧ P x) k d) :
    STree.Chain (t.setUphill c w) P k d := by
  induction hc with
  | source hp => exact STree.Chain.source hp.2
  | @step k d hp hs hk _ ih =>
    refine STree.Chain.step hp.2 hs ((STree.mem_keys_setUphill t c w k).mpr (Or.inl hk)) ?_
    rw [STree.up_setUphill_ne t c w k hp.1]
    exact ih

/-- A chain avoids every cell that is no node of the tree. -/
theorem STree.Chain.fresh {t : STree} {P : GCell → Prop} {c : GCell}
    (hc : c ∉ t.nodes.keys) (hs : c ≠ t.source) {k : GCell} {d : Nat}
    (hk : STree.Chain t P k d) : STree.Chain t (fun x => x ≠ c ∧ P x) k d := by
  induction hk with
  | source hp => exact STree.Chain.source ⟨fun h => hs h.symm, hp⟩
  | @step k d hp hs' hmem _ ih =>
    exact STree.Chain.step ⟨fun h => hc (h ▸ hmem), hp⟩ hs' hmem ih

/-- A chain avoids every cell that lies deeper in the tree than its start. -/
theorem STree.Chain.of_deeper {t : STree} {P : GCell → Prop} {c : GCell} {k : GCell}
    {d : Nat} (hk : STree.Chain t P k d)
    (hdeep : ∀ dc : Nat, STree.Chain t (fun _ => True) c dc → d < dc) :
    STree.Chain t (fun x => x ≠ c ∧ P x) k d := by
  induction hk with
  | source hp =>
    refine STree.Chain.source ⟨?_, hp⟩
    intro h
    have := hdeep 0 (h ▸ STree.Chain.source trivial)
    omega
  | @step k d hp hs hmem hrest ih =>
    refine STree.Chain.step ⟨?_, hp⟩ hs hmem (ih ?_)
    · intro h
      have hc : STree.Chain t (fun _ => True) c (d + 1) := by
        rw [← h]
        exact STree.Chain.step trivial hs hmem (hrest.mono (fun _ _ => trivial))
      have := hdeep _ hc
      omega
    · intro dc hdc
      have := hdeep dc hdc
      omega

/-- A cell met on the way up from `k` is at most as deep as `k`, and less
deep when it is not `k` itself. -/
theorem STree.Chain.meets {t : STree} {P : GCell → Prop} (v : GCell) (fuel : Nat) :
    ∀ {k : GCell} {d : Nat}, STree.Chain t P k d → STree.chainMeets t v fuel k = true →
      ∃ dv : Nat, STree.Chain t (fun _ => True) v dv ∧ dv ≤ d ∧ (k ≠ v → dv < d) := by
  induction fuel with
  | zero =>
    intro k d hk hm
    have hkv : k = v := by simpa [STree.chainMeets] using hm
    exact ⟨d, hkv ▸ hk.mono (fun _ _ => trivial), le_refl _, fun h => absurd hkv h⟩
  | succ fuel ih =>
    intro k d hk hm
    by_cases hkv : k = v
    · exact ⟨d, hkv ▸ hk.mono (fun _ _ => trivial), le_refl _, fun h => absurd hkv h⟩
    · have hm' : k ≠ t.source ∧ STree.chainMeets t v fuel (t.up k) = true := by
        simpa [STree.chainMeets, hkv] using hm
      obtain ⟨d', hd, hrest⟩ := hk.tail hm'.1
      obtain ⟨dv, h1, h2, _⟩ := ih hrest hm'.2
      exact ⟨dv, h1, by omega, fun _ => by omega⟩

/-- A chain that does not meet `v` within enough steps avoids `v`. -/
theorem STree.Chain.avoid_of_not_meets {t : STree} {P : GCell → Prop} (v : GCell) :
    ∀ {k : GCell} {d : Nat} (fuel : Nat), STree.Chain t P k d → d ≤ fuel →
      STree.chainMeets t v fuel k = false → STree.Chain t (fun x => x ≠ v ∧ P x) k d := by
  intro k d fuel hk
  induction hk generalizing fuel with
  | source hp =>
    intro _ hm
    refine STree.Chain.source ⟨?_, hp⟩
    intro h
    cases fuel with
    | zero => simp [STree.chainMeets, h] at hm
    | succ n => simp [STree.chainMeets, h] at hm
  | @step k d hp hs hmem _ ih =>
    intro hle hm
    cases fuel with
    | zero => omega
    | succ n =>
      have hm' : k ≠ v ∧ STree.chainMeets t v n (t.up k) = false := by
        simpa [STree.chainMeets, hs] using hm
      exact STree.Chain.step ⟨hm'.1, hp⟩ hs hmem (ih n (by omega) hm'.2)

/-- The cells of a chain are distinct nodes: a list of them, one per depth. -/
theorem STree.Chain.cells {t : STree} (hsrc : t.source ∈ t.nodes.keys) {k : GCell} {d : Nat}
    (hk : STree.Chain t (fun _ => True) k d) :
    ∃ cells : List GCell, cells.length = d + 1 ∧ cells.Nodup
      ∧ ∀ x ∈ cells, x ∈ t.nodes.keys
          ∧ ∃ dx : Nat, dx ≤ d ∧ STree.Chain t (fun _ => True) x dx := by
  induction hk with
  | source _ =>
    refine ⟨[t.source], rfl, List.nodup_singleton _, ?_⟩
    intro x hx
    have hxs : x = t.source := by simpa using hx
    rw [hxs]
    exact ⟨hsrc, 0, le_refl _, STree.Chain.source trivial⟩
  | @step k d _ hs hmem hrest ih =>
    obtain ⟨cells, hlen, hnd, hall⟩ := ih
    have hkchain : STree.Chain t (fun _ => True) k (d + 1) :=
      STree.Chain.step trivial hs hmem hrest
    refine ⟨k :: cells, by simp [hlen], ?_, ?_⟩
    · refine List.nodup_cons.mpr ⟨?_, hnd⟩
      intro hin
      obtain ⟨_, dx, hdx, hx⟩ := hall k hin
      have := hx.depth_unique hkchain
      omega
    · intro x hx
      rcases List.mem_cons.mp hx with hxk | hx
      · rw [hxk]
        exact ⟨hmem, d + 1, le_refl _, hkchain⟩
      · obtain ⟨h1, dx, hdx, h2⟩ := hall x hx
        exact ⟨h1, dx, by omega, h2⟩

/-- A chain has fewer steps than the tree has nodes. -/
theorem STree.Chain.depth_lt {t : STree} (hsrc : t.source ∈ t.nodes.keys) {k : GCell}
    {d : Nat} (hk : STree.Chain t (fun _ => True) k d) : d < t.nodes.keys.length := by
  obtain ⟨cells, hlen, hnd, hall⟩ := hk.cells hsrc
  have hsub : cells ⊆ t.nodes.keys := fun x hx => (hall x hx).1
  have := (List.subperm_of_subset hnd hsub).length_le
  omega

theorem STree.Chain.reaches {t : STree} {P : GCell → Prop} {k : GCell} {d : Nat}
    (hk : STree.Chain t P k d) : ∀ fuel : Nat, d ≤ fuel → t.reachesSource fuel k = true := by
  induction hk with
  | source _ =>
    intro fuel _
    cases fuel with
    | zero => simp [STree.reachesSource]
    | succ n => simp [STree.reachesSource]
  | @step k d _ hs hmem _ ih =>
    intro fuel hle
    cases fuel with
    | zero => omega
    | succ n =>
      have := ih n (by omega)
      simp [STree.reachesSource, hmem, this]

theorem STree.chain_of_reaches (t : STree) (fuel : Nat) :
    ∀ k : GCell, t.reachesSource fuel k = true →
      ∃ d : Nat, STree.Chain t (fun _ => True) k d := by
  induction fuel with
  | zero =>
    intro k h
    have hk : k = t.source := by simpa [STree.reachesSource] using h
    exact ⟨0, hk ▸ STree.Chain.source trivial⟩
  | succ n ih =>
    intro k h
    by_cases hk : k = t.source
    · exact ⟨0, hk ▸ STree.Chain.source trivial⟩
    · have h' : k ∈ t.nodes.keys ∧ t.reachesSource n (t.up k) = true := by
        simpa [STree.reachesSource, hk] using h
      obtain ⟨d, hd⟩ := ih _ h'.2
      exact ⟨d + 1, STree.Chain.step trivial hk h'.1 hd⟩

/-- The two forms of the tree invariant agree. -/
theorem STree.isTree_iff_rooted (t : STree) : t.isTree ↔ t.rooted := by
  unfold STree.isTree STree.rooted
  constructor
  · rintro ⟨hs, hall⟩
    exact ⟨hs, fun k hk => STree.chain_of_reaches t _ k (hall k hk)⟩
  · rintro ⟨hs, hall⟩
    refine ⟨hs, fun k hk => ?_⟩
    obtain ⟨d, hd⟩ := hall k hk
    exact hd.reaches _ (le_of_lt (hd.depth_lt hs))

/-- In a tree every node other than the source has a node as uphill cell. -/
theorem STree.rooted_up_mem {t : STree} (ht : t.rooted) {k : GCell} (hk : k ∈ t.nodes.keys)
    (hs : k ≠ t.source) : t.up k ∈ t.nodes.keys := by
  obtain ⟨d, hd⟩ := ht.2 k hk
  obtain ⟨d', _, hrest⟩ := hd.tail hs
  generalize t.up k = u at hrest
  cases hrest with
  | source _ => exact ht.1
  | step _ _ hmem _ => exact hmem

/-- Giving a node other than the source a new uphill cell whose chain avoids
the node keeps the tree a tree. -/
theorem STree.setUphill_rooted {t : STree} (ht : t.rooted) {v w : GCell} {dw : Nat}
    (hv : v ≠ t.source) (hw : STree.Chain t (fun x => x ≠ v) w dw) :
    (t.setUphill v w).rooted ∧ STree.Chain (t.setUphill v w) (fun _ => True) v (dw + 1) := by
  have hvchain : STree.Chain (t.setUphill v w) (fun _ => True) v (dw + 1) := by
    refine STree.Chain.step trivial hv
      ((STree.mem_keys_setUphill t v w v).mpr (Or.inr rfl)) ?_
    rw [STree.up_setUphill_self]
    exact STree.Chain.setUphill v w (hw.mono (fun _ h => ⟨h, trivial⟩))
  have hall : ∀ {k : GCell} {d : Nat}, STree.Chain t (fun _ => True) k d →
      ∃ d' : Nat, STree.Chain (t.setUphill v w) (fun _ => True) k d' := by
    intro k d hk
    induction hk with
    | source _ => exact ⟨0, STree.Chain.source trivial⟩
    | @step k d _ hs hmem _ ih =>
      by_cases hkv : k = v
      · exact ⟨dw + 1, hkv ▸ hvchain⟩
      · obtain ⟨d', hd'⟩ := ih
        refine ⟨d' + 1, STree.Chain.step trivial hs
          ((STree.mem_keys_setUphill t v w k).mpr (Or.inl hmem)) ?_⟩
        rw [STree.up_setUphill_ne t v w k hkv]
        exact hd'
  refine ⟨⟨(STree.mem_keys_setUphill t v w _).mpr (Or.inl ht.1), ?_⟩, hvchain⟩
  intro k hk
  rcases (STree.mem_keys_setUphill t v w k).mp hk with hk | hk
  · obtain ⟨d, hd⟩ := ht.2 k hk
    exact hall hd
  · exact ⟨dw + 1, hk ▸ hvchain⟩

/-! #### One bend -/

/-- The case of `viaBend` in which the bend cell holds a node that does not
hang below `v`. -/
theorem STree.viaBend_join {t : STree} {v c : GCell}
    (h : c ∈ t.nodes.keys ∧ t.below v c = false) :
    t.viaBend v c = (t.setUphill v c, false) := by
  unfold STree.viaBend
  rw [if_pos h]

/-- The case of `viaBend` in which the bend cell is free or holds a node that
hangs below `v`. -/
theorem STree.viaBend_through {t : STree} {v c : GCell}
    (h : ¬ (c ∈ t.nodes.keys ∧ t.below v c = false)) :
    t.viaBend v c = ((t.setUphill c (t.up v)).setUphill v c, true) := by
  unfold STree.viaBend
  rw [if_neg h]

/-- One bend keeps the tree a tree. -/
theorem STree.viaBend_rooted {t : STree} (ht : t.rooted) {v c : GCell}
    (hv : v ∈ t.nodes.keys) (hvs : v ≠ t.source) (hcv : c ≠ v) :
    (t.viaBend v c).1.rooted ∧ ((t.viaBend v c).2 = true → c ≠ t.source) := by
  by_cases hC : c ∈ t.nodes.keys ∧ t.below v c = false
  · rw [STree.viaBend_join hC]
    refine ⟨?_, fun h => by cases h⟩
    obtain ⟨dc, hdc⟩ := ht.2 c hC.1
    have hav := hdc.avoid_of_not_meets v t.nodes.keys.length
      (le_of_lt (hdc.depth_lt ht.1)) hC.2
    exact (STree.setUphill_rooted ht hvs (hav.mono (fun _ h => h.1))).1
  · rw [STree.viaBend_through hC]
    obtain ⟨dv, hdv⟩ := ht.2 v hv
    obtain ⟨du, hdu, hu⟩ := hdv.tail hvs
    -- the chain of the uphill cell of `v` avoids `v`
    have huv : STree.Chain t (fun x => x ≠ v ∧ True) (t.up v) du := by
      apply hu.of_deeper
      intro d' hd'
      have := hd'.depth_unique hdv
      omega
    -- and it avoids the bend cell
    have hcfacts : c ≠ t.source ∧ STree.Chain t (fun x => x ≠ c ∧ True) (t.up v) du := by
      by_cases hmem : c ∈ t.nodes.keys
      · have hbelow : t.below v c = true := by
          cases hb : t.below v c with
          | true => rfl
          | false => exact absurd ⟨hmem, hb⟩ hC
        obtain ⟨dc, hdc⟩ := ht.2 c hmem
        obtain ⟨dv', h1, _, h3⟩ := hdc.meets v _ hbelow
        have hdvv := h1.depth_unique hdv
        have hlt := h3 hcv
        constructor
        · intro hcs
          have h0 : STree.Chain t (fun _ => True) c 0 := hcs ▸ STree.Chain.source trivial
          have := h0.depth_unique hdc
          omega
        · apply hu.of_deeper
          intro d' hd'
          have := hd'.depth_unique hdc
          omega
      · have hcs : c ≠ t.source := fun h => hmem (h ▸ ht.1)
        exact ⟨hcs, hu.fresh hmem hcs⟩
    obtain ⟨hcs, huc⟩ := hcfacts
    obtain ⟨ht1, _⟩ := STree.setUphill_rooted ht hcs (huc.mono (fun _ h => h.1))
    have hboth := huc.and huv
    have hu1 : STree.Chain (t.setUphill c (t.up v)) (fun x => x ≠ v) (t.up v) du :=
      STree.Chain.setUphill c (t.up v) (hboth.mono (fun _ h => ⟨h.1.1, h.2.1⟩))
    have hc1 : STree.Chain (t.setUphill c (t.up v)) (fun x => x ≠ v) c (du + 1) := by
      refine STree.Chain.step hcv hcs
        ((STree.mem_keys_setUphill t c (t.up v) c).mpr (Or.inr rfl)) ?_
      rw [STree.up_setUphill_self]
      exact hu1
    exact ⟨(STree.setUphill_rooted ht1 hvs hc1).1, fun _ => hcs⟩

/-- What one bend changes: the bend cell becomes a node, `v` hangs below it,
port counts stay, a new node is a Steiner node, and no other node is
touched. -/
theorem STree.viaBend_frame (t : STree) {v c : GCell}
    (hv : v ∈ t.nodes.keys) (hcv : c ≠ v) :
    (t.viaBend v c).1.source = t.source
    ∧ (∀ k : GCell, k ∈ (t.viaBend v c).1.nodes.keys ↔ (k ∈ t.nodes.keys ∨ k = c))
    ∧ (∀ k ∈ t.nodes.keys,
        ((t.viaBend v c).1.nodes.get k).port_count = (t.nodes.get k).port_count)
    ∧ (c ∉ t.nodes.keys → ((t.viaBend v c).1.nodes.get c).port_count = 0)
    ∧ (t.viaBend v c).1.up v = c
    ∧ (∀ k : GCell, k ≠ v → k ≠ c → (t.viaBend v c).1.nodes.get k = t.nodes.get k)
    ∧ ((t.viaBend v c).2 = true → (t.viaBend v c).1.up c = t.up v)
    ∧ ((t.viaBend v c).2 = false →
        c ∈ t.nodes.keys ∧ (t.viaBend v c).1.nodes.get c = t.nodes.get c) := by
  have hvc : v ≠ c := fun h => hcv h.symm
  by_cases hC : c ∈ t.nodes.keys ∧ t.below v c = false
  · rw [STree.viaBend_join hC]
    dsimp only
    refine ⟨rfl, ?_, ?_, ?_, STree.up_setUphill_self t v c, ?_, (fun h => by cases h), ?_⟩
    · intro k
      rw [STree.mem_keys_setUphill]
      constructor
      · rintro (h | h)
        · exact Or.inl h
        · exact Or.inl (h ▸ hv)
      · rintro (h | h)
        · exact Or.inl h
        · exact Or.inl (h ▸ hC.1)
    · intro k hk
      by_cases hkv : k = v
      · rw [hkv, STree.port_count_setUphill_self, if_pos hv]
      · rw [STree.get_setUphill_ne t v c k hkv]
    · intro h
      exact absurd hC.1 h
    · intro k hkv _
      exact STree.get_setUphill_ne t v c k hkv
    · intro _
      exact ⟨hC.1, STree.get_setUphill_ne t v c c hcv⟩
  · rw [STree.viaBend_through hC]
    dsimp only
    have hv1 : v ∈ (t.setUphill c (t.up v)).nodes.keys :=
      (STree.mem_keys_setUphill t c (t.up v) v).mpr (Or.inl hv)
    refine ⟨rfl, ?_, ?_, ?_, STree.up_setUphill_self _ v c, ?_, ?_, fun h => by cases h⟩
    · intro k
      rw [STree.mem_keys_setUphill, STree.mem_keys_setUphill]
      constructor
      · rintro ((h | h) | h)
        · exact Or.inl h
        · exact Or.inr h
        · exact Or.inl (h ▸ hv)
      · rintro (h | h)
        · exact Or.inl (Or.inl h)
        · exact Or.inl (Or.inr h)
    · intro k hk
      by_cases hkv : k = v
      · rw [hkv, STree.port_count_setUphill_self, if_pos hv1,
          STree.get_setUphill_ne t c (t.up v) v hvc]
      · rw [STree.get_setUphill_ne _ v c k hkv]
        by_cases hkc : k = c
        · rw [hkc, STree.port_count_setUphill_self, if_pos (hkc ▸ hk)]
        · rw [STree.get_setUphill_ne t c (t.up v) k hkc]
    · intro hc
      rw [STree.get_setUphill_ne _ v c c hcv, STree.port_count_setUphill_self, if_neg hc]
    · intro k hkv hkc
      rw [STree.get_setUphill_ne _ v c k hkv, STree.get_setUphill_ne t c (t.up v) k hkc]
    · intro _
      rw [STree.up_setUphill_ne _ v c c hcv, STree.up_setUphill_self]

/-! #### The bends of a shape -/

/-- An edge is diagonal exactly when it is not horizontal or vertical. -/
theorem STree.not_diagonal_iff_aligned (a b : GCell) :
    ¬ STree.diagonal a b ↔ STree.aligned a b := by
  unfold STree.diagonal STree.aligned
  constructor
  · intro h
    by_cases hx : a.x = b.x
    · exact Or.inl hx
    · by_cases hy : a.y = b.y
      · exact Or.inr hy
      · exact absurd ⟨hx, hy⟩ h
  · rintro (h | h) ⟨hx, hy⟩
    · exact hx h
    · exact hy h

/-- The bends of a "W". -/
theorem STree.bends_W (n u : GCell) (mid : Int) :
    STree.bends n u (STree.Shape.W mid) =
      if mid = n.x then [{ x := n.x, y := u.y }]
      else if mid = u.x then [{ x := u.x, y := n.y }]
      else [{ x := mid, y := n.y }, { x := mid, y := u.y }] := rfl

/-- Along the bends of a shape for a diagonal edge, from `n`, every cell
differs from the next one. -/
theorem STree.bends_chainDistinct {n u : GCell} (hd : STree.diagonal n u) (sh : STree.Shape) :
    STree.chainDistinct (n :: STree.bends n u sh) := by
  obtain ⟨hx, hy⟩ := hd
  cases sh with
  | H =>
    refine ⟨fun h => ?_, trivial⟩
    have := congrArg GCell.x h
    exact hx this
  | V =>
    refine ⟨fun h => ?_, trivial⟩
    have := congrArg GCell.y h
    exact hy this
  | W mid =>
    rw [STree.bends_W]
    by_cases h1 : mid = n.x
    · rw [if_pos h1]
      refine ⟨fun h => ?_, trivial⟩
      have := congrArg GCell.y h
      exact hy this
    · rw [if_neg h1]
      by_cases h2 : mid = u.x
      · rw [if_pos h2]
        refine ⟨fun h => ?_, trivial⟩
        have := congrArg GCell.x h
        exact hx this
      · rw [if_neg h2]
        refine ⟨fun h => ?_, fun h => ?_, trivial⟩
        · have := congrArg GCell.x h
          exact h1 this.symm
        · have := congrArg GCell.y h
          exact hy this

/-- Along the bends of a shape, from `n` up to `u`, every cell shares a
coordinate with the next one. -/
theorem STree.bends_chainAligned (n u : GCell) (sh : STree.Shape) :
    STree.chainAligned (n :: STree.bends n u sh) u := by
  cases sh with
  | H => exact ⟨Or.inr rfl, Or.inl rfl⟩
  | V => exact ⟨Or.inl rfl, Or.inr rfl⟩
  | W mid =>
    rw [STree.bends_W]
    by_cases h1 : mid = n.x
    · rw [if_pos h1]
      exact ⟨Or.inl rfl, Or.inr rfl⟩
    · rw [if_neg h1]
      by_cases h2 : mid = u.x
      · rw [if_pos h2]
        exact ⟨Or.inr rfl, Or.inl rfl⟩
      · rw [if_neg h2]
        exact ⟨Or.inr rfl, Or.inl rfl, Or.inr rfl⟩

/-! #### A run of bends -/

/-- A run of bends goes on from the bend cell when that cell now hangs below
the old uphill cell. -/
theorem STree.followBends_cons_true {t : STree} {v c : GCell} (rest : List GCell)
    (h : (t.viaBend v c).2 = true) :
    t.followBends v (c :: rest) = (t.viaBend v c).1.followBends c rest := by
  show (if (t.viaBend v c).2 = true then (t.viaBend v c).1.followBends c rest
    else (t.viaBend v c).1) = _
  rw [if_pos h]

/-- A run of bends ends where `v` joins a node that is there already. -/
theorem STree.followBends_cons_false {t : STree} {v c : GCell} (rest : List GCell)
    (h : (t.viaBend v c).2 = false) :
    t.followBends v (c :: rest) = (t.viaBend v c).1 := by
  show (if (t.viaBend v c).2 = true then (t.viaBend v c).1.followBends c rest
    else (t.viaBend v c).1) = _
  rw [if_neg (by rw [h]; exact Bool.false_ne_true)]

/-- A run of bends keeps the tree a tree. -/
theorem STree.followBends_rooted : ∀ (bs : List GCell) (t : STree) (v : GCell),
    t.rooted → v ∈ t.nodes.keys → v ≠ t.source → STree.chainDistinct (v :: bs) →
    (t.followBends v bs).rooted := by
  intro bs
  induction bs with
  | nil => intro t v ht _ _ _; exact ht
  | cons c rest ih =>
    intro t v ht hv hvs hdist
    have hcv : c ≠ v := fun h => hdist.1 h.symm
    obtain ⟨hr, hflag⟩ := STree.viaBend_rooted ht hv hvs hcv
    obtain ⟨hsrc, hkeys, _⟩ := STree.viaBend_frame t hv hcv
    cases hb : (t.viaBend v c).2 with
    | false =>
      rw [STree.followBends_cons_false rest hb]
      exact hr
    | true =>
      rw [STree.followBends_cons_true rest hb]
      refine ih _ c hr ((hkeys c).mpr (Or.inr rfl)) ?_ hdist.2
      rw [hsrc]
      exact hflag hb

/-- What a run of bends changes.  The source stays; every node stays, with
its port count; a new node is a Steiner node; and every node either has an
uphill edge that is horizontal or vertical, or is a node other than `v` that
was not touched. -/
theorem STree.followBends_frame : ∀ (bs : List GCell) (t : STree) (v : GCell),
    v ∈ t.nodes.keys → STree.chainDistinct (v :: bs) →
    STree.chainAligned (v :: bs) (t.up v) →
    (t.followBends v bs).source = t.source
    ∧ (∀ k ∈ t.nodes.keys, k ∈ (t.followBends v bs).nodes.keys
        ∧ ((t.followBends v bs).nodes.get k).port_count = (t.nodes.get k).port_count)
    ∧ (∀ k ∈ (t.followBends v bs).nodes.keys, k ∉ t.nodes.keys →
        ((t.followBends v bs).nodes.get k).port_count = 0)
    ∧ (∀ k ∈ (t.followBends v bs).nodes.keys,
        STree.aligned k ((t.followBends v bs).up k)
        ∨ (k ≠ v ∧ k ∈ t.nodes.keys ∧ (t.followBends v bs).nodes.get k = t.nodes.get k)) := by
  intro bs
  induction bs with
  | nil =>
    intro t v hv _ hal
    refine ⟨rfl, fun k hk => ⟨hk, rfl⟩, fun k hk hnk => absurd hk hnk, ?_⟩
    intro k hk
    by_cases hkv : k = v
    · left
      rw [hkv]
      exact hal
    · exact Or.inr ⟨hkv, hk, rfl⟩
  | cons c rest ih =>
    intro t v hv hdist hal
    have hcv : c ≠ v := fun h => hdist.1 h.symm
    obtain ⟨hsrc, hkeys, hpc, hnew, hupv, hother, htrue, hfalse⟩ :=
      STree.viaBend_frame t hv hcv
    have hvc : STree.aligned v c := by
      cases rest with
      | nil => exact hal.1
      | cons _ _ => exact hal.1
    cases hb : (t.viaBend v c).2 with
    | false =>
      rw [STree.followBends_cons_false rest hb]
      obtain ⟨hcmem, hcget⟩ := hfalse hb
      refine ⟨hsrc, fun k hk => ⟨(hkeys k).mpr (Or.inl hk), hpc k hk⟩, ?_, ?_⟩
      · intro k hk hnk
        rcases (hkeys k).mp hk with h | h
        · exact absurd h hnk
        · exact absurd (h ▸ hcmem) hnk
      · intro k hk
        by_cases hkv : k = v
        · left
          rw [hkv, hupv]
          exact hvc
        · right
          refine ⟨hkv, ?_, ?_⟩
          · rcases (hkeys k).mp hk with h | h
            · exact h
            · exact h ▸ hcmem
          · by_cases hkc : k = c
            · rw [hkc]
              exact hcget
            · exact hother k hkv hkc
    | true =>
      rw [STree.followBends_cons_true rest hb]
      have hal1 : STree.chainAligned (c :: rest) ((t.viaBend v c).1.up c) := by
        rw [htrue hb]
        cases rest with
        | nil => exact hal.2
        | cons _ _ => exact hal.2
      obtain ⟨isrc, ikeep, inew, ial⟩ :=
        ih (t.viaBend v c).1 c ((hkeys c).mpr (Or.inr rfl)) hdist.2 hal1
      refine ⟨isrc.trans hsrc, ?_, ?_, ?_⟩
      · intro k hk
        obtain ⟨h1, h2⟩ := ikeep k ((hkeys k).mpr (Or.inl hk))
        exact ⟨h1, h2.trans (hpc k hk)⟩
      · intro k hk hnk
        by_cases hk1 : k ∈ (t.viaBend v c).1.nodes.keys
        · rcases (hkeys k).mp hk1 with h | h
          · exact absurd h hnk
          · rw [h]
            rw [h] at hnk
            exact ((ikeep c ((hkeys c).mpr (Or.inr rfl))).2).trans (hnew hnk)
        · exact inew k hk hk1
      · intro k hk
        rcases ial k hk with h | ⟨hkc, hk1, hget⟩
        · exact Or.inl h
        · have hkt : k ∈ t.nodes.keys := by
            rcases (hkeys k).mp hk1 with h | h
            · exact h
            · exact absurd h hkc
          by_cases hkv : k = v
          · left
            have : ((t.viaBend v c).1.followBends c rest).up k = (t.viaBend v c).1.up k :=
              congrArg STreeNode.uphill hget
            rw [this, hkv, hupv]
            exact hvc
          · exact Or.inr ⟨hkv, hkt, hget.trans (hother k hkv hkc)⟩

/-! #### One edge, and all edges -/

/-- The source has no uphill edge to decompose. -/
theorem STree.fixEdge_source (shape : STree → GCell → GCell → STree.Shape) {t : STree}
    {n : GCell} (h : n = t.source) : STree.fixEdge shape t n = t := by
  unfold STree.fixEdge
  rw [if_pos h]

/-- An edge that is horizontal or vertical is left alone. -/
theorem STree.fixEdge_straight (shape : STree → GCell → GCell → STree.Shape) {t : STree}
    {n : GCell} (h : n ≠ t.source) (hd : ¬ STree.diagonal n (t.up n)) :
    STree.fixEdge shape t n = t := by
  unfold STree.fixEdge
  rw [if_neg h, if_neg hd]

/-- A diagonal edge is rerouted through the bends of the chosen shape. -/
theorem STree.fixEdge_diagonal (shape : STree → GCell → GCell → STree.Shape) {t : STree}
    {n : GCell} (h : n ≠ t.source) (hd : STree.diagonal n (t.up n)) :
    STree.fixEdge shape t n
      = t.followBends n (STree.bends n (t.up n) (shape t n (t.up n))) := by
  unfold STree.fixEdge
  rw [if_neg h, if_pos hd]

/-- Decomposing one edge keeps the tree a tree. -/
theorem STree.fixEdge_rooted (shape : STree → GCell → GCell → STree.Shape) {t : STree}
    (ht : t.rooted) {n : GCell} (hn : n ∈ t.nodes.keys) :
    (STree.fixEdge shape t n).rooted := by
  by_cases h : n = t.source
  · rw [STree.fixEdge_source shape h]
    exact ht
  · by_cases hd : STree.diagonal n (t.up n)
    · rw [STree.fixEdge_diagonal shape h hd]
      exact STree.followBends_rooted _ t n ht hn h (STree.bends_chainDistinct hd _)
    · rw [STree.fixEdge_straight shape h hd]
      exact ht

/-- What decomposing the edge above `n` changes.  The source stays; every
node stays, with its port count; a new node is a Steiner node; and every node
is the source, or has an uphill edge that is horizontal or vertical, or is a
node other than `n` that was not touched. -/
theorem STree.fixEdge_frame (shape : STree → GCell → GCell → STree.Shape) (t : STree)
    {n : GCell} (hn : n ∈ t.nodes.keys) :
    (STree.fixEdge shape t n).source = t.source
    ∧ (∀ k ∈ t.nodes.keys, k ∈ (STree.fixEdge shape t n).nodes.keys
        ∧ ((STree.fixEdge shape t n).nodes.get k).port_count = (t.nodes.get k).port_count)
    ∧ (∀ k ∈ (STree.fixEdge shape t n).nodes.keys, k ∉ t.nodes.keys →
        ((STree.fixEdge shape t n).nodes.get k).port_count = 0)
    ∧ (∀ k ∈ (STree.fixEdge shape t n).nodes.keys,
        k = t.source ∨ STree.aligned k ((STree.fixEdge shape t n).up k)
        ∨ (k ≠ n ∧ k ∈ t.nodes.keys ∧ (STree.fixEdge shape t n).nodes.get k = t.nodes.get k)) := by
  by_cases h : n = t.source
  · rw [STree.fixEdge_source shape h]
    refine ⟨rfl, fun k hk => ⟨hk, rfl⟩, fun k hk hnk => absurd hk hnk, ?_⟩
    intro k hk
    by_cases hkn : k = n
    · exact Or.inl (hkn.trans h)
    · exact Or.inr (Or.inr ⟨hkn, hk, rfl⟩)
  · by_cases hd : STree.diagonal n (t.up n)
    · rw [STree.fixEdge_diagonal shape h hd]
      obtain ⟨hsrc, hkeep, hnew, hal⟩ := STree.followBends_frame _ t n hn
        (STree.bends_chainDistinct hd (shape t n (t.up n)))
        (STree.bends_chainAligned n (t.up n) (shape t n (t.up n)))
      exact ⟨hsrc, hkeep, hnew, fun k hk => Or.inr (hal k hk)⟩
    · rw [STree.fixEdge_straight shape h hd]
      refine ⟨rfl, fun k hk => ⟨hk, rfl⟩, fun k hk hnk => absurd hk hnk, ?_⟩
      intro k hk
      by_cases hkn : k = n
      · right
        left
        rw [hkn]
        exact (STree.not_diagonal_iff_aligned n (t.up n)).mp hd
      · exact Or.inr (Or.inr ⟨hkn, hk, rfl⟩)

/-- Decomposing the edges above a list of nodes keeps the tree a tree. -/
theorem STree.foldl_fixEdge_rooted (shape : STree → GCell → GCell → STree.Shape) :
    ∀ (todo : List GCell) (t : STree), t.rooted → (∀ k ∈ todo, k ∈ t.nodes.keys) →
      (todo.foldl (STree.fixEdge shape) t).rooted := by
  intro todo
  induction todo with
  | nil => intro t ht _; exact ht
  | cons n rest ih =>
    intro t ht hsub
    have hn : n ∈ t.nodes.keys := hsub n (List.mem_cons_self n rest)
    rw [List.foldl_cons]
    refine ih _ (STree.fixEdge_rooted shape ht hn) ?_
    intro k hk
    exact ((STree.fixEdge_frame shape t hn).2.1 k (hsub k (List.mem_cons_of_mem n hk))).1

/-- What decomposing the edges above a list of nodes changes.  The source
stays; every node stays, with its port count; a new node is a Steiner node;
and every node is the source, or has an uphill edge that is horizontal or
vertical, or is a node outside the list that was not touched. -/
theorem STree.foldl_fixEdge_frame (shape : STree → GCell → GCell → STree.Shape) :
    ∀ (todo : List GCell) (t : STree), (∀ k ∈ todo, k ∈ t.nodes.keys) →
      (todo.foldl (STree.fixEdge shape) t).source = t.source
      ∧ (∀ k ∈ t.nodes.keys, k ∈ (todo.foldl (STree.fixEdge shape) t).nodes.keys
          ∧ ((todo.foldl (STree.fixEdge shape) t).nodes.get k).port_count
              = (t.nodes.get k).port_count)
      ∧ (∀ k ∈ (todo.foldl (STree.fixEdge shape) t).nodes.keys, k ∉ t.nodes.keys →
          ((todo.foldl (STree.fixEdge shape) t).nodes.get k).port_count = 0)
      ∧ (∀ k ∈ (todo.foldl (STree.fixEdge shape) t).nodes.keys,
          k = t.source ∨ STree.aligned k ((todo.foldl (STree.fixEdge shape) t).up k)
          ∨ (k ∉ todo ∧ k ∈ t.nodes.keys
              ∧ (todo.foldl (STree.fixEdge shape) t).nodes.get k = t.nodes.get k)) := by
  intro todo
  induction todo with
  | nil =>
    intro t _
    refine ⟨rfl, fun k hk => ⟨hk, rfl⟩, fun k hk hnk => absurd hk hnk, ?_⟩
    intro k hk
    exact Or.inr (Or.inr ⟨List.not_mem_nil k, hk, rfl⟩)
  | cons n rest ih =>
    intro t hsub
    have hn : n ∈ t.nodes.keys := hsub n (List.mem_cons_self n rest)
    obtain ⟨hsrc, hkeep, hnew, hal⟩ := STree.fixEdge_frame shape t hn
    have hsub1 : ∀ k ∈ rest, k ∈ (STree.fixEdge shape t n).nodes.keys :=
      fun k hk => (hkeep k (hsub k (List.mem_cons_of_mem n hk))).1
    obtain ⟨isrc, ikeep, inew, ial⟩ := ih (STree.fixEdge shape t n) hsub1
    rw [List.foldl_cons]
    refine ⟨isrc.trans hsrc, ?_, ?_, ?_⟩
    · intro k hk
      obtain ⟨h1, h2⟩ := ikeep k (hkeep k hk).1
      exact ⟨h1, h2.trans (hkeep k hk).2⟩
    · intro k hk hnk
      by_cases hk1 : k ∈ (STree.fixEdge shape t n).nodes.keys
      · exact ((ikeep k hk1).2).trans (hnew k hk1 hnk)
      · exact inew k hk hk1
    · intro k hk
      rcases ial k hk with h | h | ⟨hkr, hk1, hget⟩
      · exact Or.inl (h.trans hsrc)
      · exact Or.inr (Or.inl h)
      · have hup : ((rest.foldl (STree.fixEdge shape) (STree.fixEdge shape t n))).up k
            = (STree.fixEdge shape t n).up k := congrArg STreeNode.uphill hget
        rcases hal k hk1 with h | h | ⟨hkn, hkt, hget1⟩
        · exact Or.inl h
        · right
          left
          rw [hup]
          exact h
        · refine Or.inr (Or.inr ⟨?_, hkt, hget.trans hget1⟩)
          intro hmem
          rcases List.mem_cons.mp hmem with h | h
          · exact hkn h
          · exact hkr h

/-- C10: for every `STree`, after `steinerise_hvw`, whatever shape is chosen
for an edge, every node other than the source has the same `x` or the same `y`
as its uphill cell: no edge joins two cells that differ in both `x` and `y`.
The source stays the source; every node of the tree stays a node, with its
port count; every node that is new is a Steiner node (`port_count == 0`).
When the tree had the invariant of `STree`, the result has it too, and the
uphill cell of every node other than the source is a node of the result. -/
theorem steinerise_hvw_no_diagonal_edge (shape : STree → GCell → GCell → STree.Shape)
    (t : STree) :
    (∀ k ∈ (STree.steinerise_hvw shape t).nodes.keys,
        k ≠ (STree.steinerise_hvw shape t).source →
        (k.x = ((STree.steinerise_hvw shape t).up k).x
            ∨ k.y = ((STree.steinerise_hvw shape t).up k).y)
          ∧ ¬ STree.diagonal k ((STree.steinerise_hvw shape t).up k))
    ∧ (STree.steinerise_hvw shape t).source = t.source
    ∧ (∀ k ∈ t.nodes.keys, k ∈ (STree.steinerise_hvw shape t).nodes.keys
        ∧ ((STree.steinerise_hvw shape t).nodes.get k).port_count
            = (t.nodes.get k).port_count)
    ∧ (∀ k ∈ (STree.steinerise_hvw shape t).nodes.keys, k ∉ t.nodes.keys →
        ((STree.steinerise_hvw shape t).nodes.get k).port_count = 0)
    ∧ (t.isTree →
        (STree.steinerise_hvw shape t).isTree
        ∧ ∀ k ∈ (STree.steinerise_hvw shape t).nodes.keys,
            k ≠ (STree.steinerise_hvw shape t).source →
            (STree.steinerise_hvw shape t).up k ∈ (STree.steinerise_hvw shape t).nodes.keys) := by
  obtain ⟨hsrc, hkeep, hnew, hal⟩ :=
    STree.foldl_fixEdge_frame shape t.nodes.keys t (fun _ h => h)
  have hal2 : ∀ k ∈ (STree.steinerise_hvw shape t).nodes.keys,
      k ≠ (STree.steinerise_hvw shape t).source →
      STree.aligned k ((STree.steinerise_hvw shape t).up k) := by
    intro k hk hks
    rcases hal k hk with h | h | ⟨hnot, hin, _⟩
    · exact absurd (h.trans hsrc.symm) hks
    · exact h
    · exact absurd hin hnot
  refine ⟨?_, hsrc, hkeep, hnew, ?_⟩
  · intro k hk hks
    exact ⟨hal2 k hk hks, (STree.not_diagonal_iff_aligned _ _).mpr (hal2 k hk hks)⟩
  · intro ht
    have hr : (STree.steinerise_hvw shape t).rooted :=
      STree.foldl_fixEdge_rooted shape t.nodes.keys t
        ((STree.isTree_iff_rooted t).mp ht) (fun _ h => h)
    exact ⟨(STree.isTree_iff_rooted _).mpr hr, fun k hk hks => STree.rooted_up_mem hr hk hks⟩

/-- The invariant of `STree` holds for the sample tree; `steinerise_hvw`
with the horizontal-first shape keeps it, and the uphill cell of every node
other than the source is a node of the result. -/
theorem steinerise_hvw_no_diagonal_edge_witness :
    STree.sampleTree.isTree
    ∧ (STree.steinerise_hvw (fun _ _ _ => STree.Shape.H) STree.sampleTree).isTree
    ∧ ∀ k ∈ (STree.steinerise_hvw (fun _ _ _ => STree.Shape.H) STree.sampleTree).nodes.keys,
        k ≠ (STree.steinerise_hvw (fun _ _ _ => STree.Shape.H) STree.sampleTree).source →
        (STree.steinerise_hvw (fun _ _ _ => STree.Shape.H) STree.sampleTree).up k
          ∈ (STree.steinerise_hvw (fun _ _ _ => STree.Shape.H) STree.sampleTree).nodes.keys :=
  ⟨by decide,
    (steinerise_hvw_no_diagonal_edge (fun _ _ _ => STree.Shape.H) STree.sampleTree).2.2.2.2
      (by decide)⟩

/-- On the sample tree the horizontal-first shape bends the edge above
`(5, 5)` at `(0, 5)`, a node that hangs below `(5, 5)`: that node is moved up
to hang below the source and `(5, 5)` hangs below it.  The vertical-first shape
bends at the free cell `(5, 0)`, where a Steiner node is inserted. -/
theorem STree.steinerise_hvw_sampleTree :
    (STree.steinerise_hvw (fun _ _ _ => STree.Shape.H) STree.sampleTree).nodes.keys
        = [{ x := 0, y := 0 }, { x := 5, y := 5 }, { x := 0, y := 5 }]
    ∧ (STree.steinerise_hvw (fun _ _ _ => STree.Shape.H) STree.sampleTree).up { x := 5, y := 5 }
        = { x := 0, y := 5 }
    ∧ (STree.steinerise_hvw (fun _ _ _ => STree.Shape.H) STree.sampleTree).up { x := 0, y := 5 }
        = { x := 0, y := 0 }
    ∧ (STree.steinerise_hvw (fun _ _ _ => STree.Shape.V) STree.sampleTree).nodes.keys
        = [{ x := 0, y := 0 }, { x := 5, y := 5 }, { x := 0, y := 5 }, { x := 5, y := 0 }]
    ∧ (STree.steinerise_hvw (fun _ _ _ => STree.Shape.V) STree.sampleTree).up { x := 5, y := 5 }
        = { x := 5, y := 0 }
    ∧ (STree.steinerise_hvw (fun _ _ _ => STree.Shape.V) STree.sampleTree).up { x := 5, y := 0 }
        = { x := 0, y := 0 }
    ∧ (STree.steinerise_hvw (fun _ _ _ => STree.Shape.V) STree.sampleTree).up { x := 0, y := 5 }
        = { x := 5, y := 5 }
    ∧ ((STree.steinerise_hvw (fun _ _ _ => STree.Shape.V) STree.sampleTree).nodes.get
        { x := 5, y := 0 }).port_count = 0 := by
  decide

/-! ### GBox.extend, continued -/

/-- C15: for every box whatsoever and every cell `p`, after `extend(p)` the
box satisfies `x0 <= p.x <= x1` and `y0 <= p.y <= y1`; so one `extend` call
makes any box ordered and containing `p`. -/
theorem GBox_extend_contains_point (b : GBox) (p : GCell) :
    (b.extend p).x0 ≤ p.x ∧ p.x ≤ (b.extend p).x1
    ∧ (b.extend p).y0 ≤ p.y ∧ p.y ≤ (b.extend p).y1
    ∧ (b.extend p).ordered ∧ (b.extend p).contains p := by
  have e := GBox.extend_fields b p
  unfold GBox.ordered GBox.contains
  omega

/-! ### within_tol_of_cell -/

/-- C16: on cells with `int16_t` coordinates `within_tol_of_cell` returns
`target.mdist(actual)` when `|target.x-actual.x| <= xtol` and
`|target.y-actual.y| <= ytol`, and `-1` otherwise; the result is non-negative
exactly when both tolerances are met, a non-negative result is at most
`xtol + ytol`, and swapping `target` and `actual` gives the same result. -/
theorem within_tol_of_cell_spec (target actual : GCell) (xtol ytol : Int)
    (ht : target.wf) (ha : actual.wf) :
    ((|target.x - actual.x| ≤ xtol ∧ |target.y - actual.y| ≤ ytol) →
        InFlightArc.within_tol_of_cell target actual xtol ytol = target.mdist actual)
    ∧ (¬ (|target.x - actual.x| ≤ xtol ∧ |target.y - actual.y| ≤ ytol) →
        InFlightArc.within_tol_of_cell target actual xtol ytol = -1)
    ∧ (0 ≤ InFlightArc.within_tol_of_cell target actual xtol ytol ↔
        (|target.x - actual.x| ≤ xtol ∧ |target.y - actual.y| ≤ ytol))
    ∧ (0 ≤ InFlightArc.within_tol_of_cell target actual xtol ytol →
        InFlightArc.within_tol_of_cell target actual xtol ytol ≤ xtol + ytol)
    ∧ InFlightArc.within_tol_of_cell actual target xtol ytol
        = InFlightArc.within_tol_of_cell target actual xtol ytol := by
  have dx := absInt32_sub target.x actual.x ht.1 ha.1
  have dy := absInt32_sub target.y actual.y ht.2 ha.2
  have dx' := absInt32_sub actual.x target.x ha.1 ht.1
  have dy' := absInt32_sub actual.y target.y ha.2 ht.2
  have sx := abs_sub_comm actual.x target.x
  have sy := abs_sub_comm actual.y target.y
  have bx := abs_sub_int16_le target.x actual.x ht.1 ha.1
  have bY := abs_sub_int16_le target.y actual.y ht.2 ha.2
  have nx := abs_nonneg (target.x - actual.x)
  have ny := abs_nonneg (target.y - actual.y)
  have hm := GCell.mdist_eq target actual ht ha
  have hw : wrapInt32 (|target.x - actual.x| + |target.y - actual.y|)
      = |target.x - actual.x| + |target.y - actual.y| :=
    wrapInt32_of_isInt32 _ ⟨by omega, by omega⟩
  have hval : InFlightArc.within_tol_of_cell target actual xtol ytol
      = if |target.x - actual.x| ≤ xtol ∧ |target.y - actual.y| ≤ ytol
        then |target.x - actual.x| + |target.y - actual.y| else -1 := by
    unfold InFlightArc.within_tol_of_cell
    simp only [dx, dy, hw]
  have hval' : InFlightArc.within_tol_of_cell actual target xtol ytol
      = if |target.x - actual.x| ≤ xtol ∧ |target.y - actual.y| ≤ ytol
        then |target.x - actual.x| + |target.y - actual.y| else -1 := by
    unfold InFlightArc.within_tol_of_cell
    simp only [dx', dy', sx, sy, hw]
  rw [hval', hval, hm]
  generalize |target.x - actual.x| = p at nx bx
  generalize |target.y - actual.y| = q at ny bY
  refine ⟨?_, ?_, ?_, ?_, rfl⟩
  · intro h
    rw [if_pos h]
  · intro h
    rw [if_neg h]
  · split_ifs with h
    · constructor
      · intro _; exact h
      · intro _; omega
    · constructor
      · intro h'; omega
      · intro h'; exact absurd h' h
  · split_ifs with h
    · intro _; omega
    · intro h'; omega

/-- Witness for C16: a cell within both tolerances of the target. -/
theorem within_tol_of_cell_spec_witness :
    ((|(GCell.mk 4 (-2)).x - (GCell.mk 6 (-3)).x| ≤ 2
        ∧ |(GCell.mk 4 (-2)).y - (GCell.mk 6 (-3)).y| ≤ 1) →
        InFlightArc.within_tol_of_cell (GCell.mk 4 (-2)) (GCell.mk 6 (-3)) 2 1
          = (GCell.mk 4 (-2)).mdist (GCell.mk 6 (-3)))
    ∧ (¬ (|(GCell.mk 4 (-2)).x - (GCell.mk 6 (-3)).x| ≤ 2
        ∧ |(GCell.mk 4 (-2)).y - (GCell.mk 6 (-3)).y| ≤ 1) →
        InFlightArc.within_tol_of_cell (GCell.mk 4 (-2)) (GCell.mk 6 (-3)) 2 1 = -1)
    ∧ (0 ≤ InFlightArc.within_tol_of_cell (GCell.mk 4 (-2)) (GCell.mk 6 (-3)) 2 1 ↔
        (|(GCell.mk 4 (-2)).x - (GCell.mk 6 (-3)).x| ≤ 2
          ∧ |(GCell.mk 4 (-2)).y - (GCell.mk 6 (-3)).y| ≤ 1))
    ∧ (0 ≤ InFlightArc.within_tol_of_cell (GCell.mk 4 (-2)) (GCell.mk 6 (-3)) 2 1 →
        InFlightArc.within_tol_of_cell (GCell.mk 4 (-2)) (GCell.mk 6 (-3)) 2 1 ≤ 2 + 1)
    ∧ InFlightArc.within_tol_of_cell (GCell.mk 6 (-3)) (GCell.mk 4 (-2)) 2 1
        = InFlightArc.within_tol_of_cell (GCell.mk 4 (-2)) (GCell.mk 6 (-3)) 2 1 :=
  within_tol_of_cell_spec (GCell.mk 4 (-2)) (GCell.mk 6 (-3)) 2 1 (by decide) (by decide)

/-! ### within_tol_of_line, continued -/

/-- The backward-step result of a horizontal line, when the `int`
expression of the test does not overflow. -/
theorem InFlightArc.backward_horiz (line0 line1 actual : GCell) (xtol ytol : Int)
    (h0 : line0.wf) (h1 : line1.wf) (ha : actual.wf)
    (hd1 : line0.x < line1.x → isInt32 (line0.x - xtol))
    (hd2 : line1.x < line0.x → isInt32 (line0.x + xtol))
    (hy : line1.y = line0.y) :
    InFlightArc.within_tol_of_line line0 line1 actual xtol ytol = some (-2) ↔
      ((line0.x < line1.x ∧ line0.x - actual.x > xtol)
        ∨ (line1.x < line0.x ∧ actual.x - line0.x > xtol)) := by
  have ny := abs_nonneg (actual.y - line0.y)
  have hc : ((line1.x > line0.x ∧ actual.x < wrapInt32 (line0.x - xtol))
        ∨ (line1.x < line0.x ∧ actual.x > wrapInt32 (line0.x + xtol)))
      ↔ ((line0.x < line1.x ∧ line0.x - actual.x > xtol)
        ∨ (line1.x < line0.x ∧ actual.x - line0.x > xtol)) := by
    rcases lt_trichotomy line0.x line1.x with hlt | heq | hgt
    · rw [wrapInt32_of_isInt32 _ (hd1 hlt)]
      omega
    · omega
    · rw [wrapInt32_of_isInt32 _ (hd2 hgt)]
      omega
  rw [InFlightArc.within_tol_of_line_horiz line0 line1 actual xtol ytol h0 h1 ha hy, ← hc]
  split_ifs with c1 c2 c3 c4
  · exact ⟨fun _ => c1, fun _ => rfl⟩
  · exact ⟨fun h => by injection h with h; omega, fun h => absurd h c1⟩
  · exact ⟨fun h => by injection h with h; omega, fun h => absurd h c1⟩
  · exact ⟨fun h => by injection h with h; omega, fun h => absurd h c1⟩
  · exact ⟨fun h => by injection h with h; omega, fun h => absurd h c1⟩

/-- The backward-step result of a vertical line, when the `int` expression
of the test does not overflow. -/
theorem InFlightArc.backward_vert (line0 line1 actual : GCell) (xtol ytol : Int)
    (h0 : line0.wf) (h1 : line1.wf) (ha : actual.wf)
    (hd1 : line0.y < line1.y → isInt32 (line0.y - ytol))
    (hd2 : line1.y < line0.y → isInt32 (line0.y + ytol))
    (hy : line1.y ≠ line0.y) (hx : line1.x = line0.x) :
    InFlightArc.within_tol_of_line line0 line1 actual xtol ytol = some (-2) ↔
      ((line0.y < line1.y ∧ line0.y - actual.y > ytol)
        ∨ (line1.y < line0.y ∧ actual.y - line0.y > ytol)) := by
  have nx := abs_nonneg (actual.x - line0.x)
  have hc : ((line1.y > line0.y ∧ actual.y < wrapInt32 (line0.y - ytol))
        ∨ (line1.y < line0.y ∧ actual.y > wrapInt32 (line0.y + ytol)))
      ↔ ((line0.y < line1.y ∧ line0.y - actual.y > ytol)
        ∨ (line1.y < line0.y ∧ actual.y - line0.y > ytol)) := by
    rcases lt_trichotomy line0.y line1.y with hlt | heq | hgt
    · rw [wrapInt32_of_isInt32 _ (hd1 hlt)]
      omega
    · omega
    · rw [wrapInt32_of_isInt32 _ (hd2 hgt)]
      omega
  rw [InFlightArc.within_tol_of_line_vert line0 line1 actual xtol ytol h0 h1 ha hy hx, ← hc]
  split_ifs with c1 c2 c3 c4
  · exact ⟨fun _ => c1, fun _ => rfl⟩
  · exact ⟨fun h => by injection h with h; omega, fun h => absurd h c1⟩
  · exact ⟨fun h => by injection h with h; omega, fun h => absurd h c1⟩
  · exact ⟨fun h => by injection h with h; omega, fun h => absurd h c1⟩
  · exact ⟨fun h => by injection h with h; omega, fun h => absurd h c1⟩

/-- The hypothesis of the amended backward-step property is exact on
horizontal lines: for an `int` tolerance whose test expression does overflow,
the result is `-2` exactly when `actual` is *not* behind `line0` by more than
the tolerance. -/
theorem InFlightArc.backward_horiz_overflow (line0 line1 actual : GCell) (xtol ytol : Int)
    (h0 : line0.wf) (h1 : line1.wf) (ha : actual.wf) (ht : isInt32 xtol)
    (hy : line1.y = line0.y)
    (hbad : (line0.x < line1.x ∧ ¬ isInt32 (line0.x - xtol))
      ∨ (line1.x < line0.x ∧ ¬ isInt32 (line0.x + xtol))) :
    InFlightArc.within_tol_of_line line0 line1 actual xtol ytol = some (-2) ↔
      ¬ ((line0.x < line1.x ∧ line0.x - actual.x > xtol)
        ∨ (line1.x < line0.x ∧ actual.x - line0.x > xtol)) := by
  have ny := abs_nonneg (actual.y - line0.y)
  have a1 : -32768 ≤ line0.x ∧ line0.x ≤ 32767 := h0.1
  have a3 : -32768 ≤ line1.x ∧ line1.x ≤ 32767 := h1.1
  have a5 : -32768 ≤ actual.x ∧ actual.x ≤ 32767 := ha.1
  have hc : ((line1.x > line0.x ∧ actual.x < wrapInt32 (line0.x - xtol))
        ∨ (line1.x < line0.x ∧ actual.x > wrapInt32 (line0.x + xtol)))
      ↔ ¬ ((line0.x < line1.x ∧ line0.x - actual.x > xtol)
        ∨ (line1.x < line0.x ∧ actual.x - line0.x > xtol)) := by
    unfold isInt32 at ht hbad
    unfold wrapInt32
    omega
  rw [InFlightArc.within_tol_of_line_horiz line0 line1 actual xtol ytol h0 h1 ha hy, ← hc]
  split_ifs with c1 c2 c3 c4
  · exact ⟨fun _ => c1, fun _ => rfl⟩
  · exact ⟨fun h => by injection h with h; omega, fun h => absurd h c1⟩
  · exact ⟨fun h => by injection h with h; omega, fun h => absurd h c1⟩
  · exact ⟨fun h => by injection h with h; omega, fun h => absurd h c1⟩
  · exact ⟨fun h => by injection h with h; omega, fun h => absurd h c1⟩

/-- C12 (amended): for an axis-aligned line, cells with `int16_t`
coordinates and tolerances for which the `int` expression evaluated by the
backward-step test (`line0`'s moving coordinate minus the moving axis's
tolerance when `line1` is ahead in increasing direction, plus it when
`line1` is ahead in decreasing direction) does not overflow,
`within_tol_of_line` returns `-2` exactly when the ends differ and the moving
coordinate of `actual` (x for a horizontal line, y for a vertical one) lies
behind `line0`, on the side away from `line1`, by more than that axis's
tolerance; the ends then differ, and the result stays `-2` for every other
offset of `actual` on the fixed axis, so it takes priority over `-1`. -/
theorem within_tol_of_line_backward_step (line0 line1 actual : GCell) (xtol ytol : Int)
    (h0 : line0.wf) (h1 : line1.wf) (ha : actual.wf)
    (hdef : InFlightArc.backwardTestDefined line0 line1 xtol ytol)
    (hax : line0.x = line1.x ∨ line0.y = line1.y) :
    (line1.y = line0.y →
      (InFlightArc.within_tol_of_line line0 line1 actual xtol ytol = some (-2) ↔
        ((line0.x < line1.x ∧ line0.x - actual.x > xtol)
          ∨ (line1.x < line0.x ∧ actual.x - line0.x > xtol))))
    ∧ (line1.y ≠ line0.y →
      (InFlightArc.within_tol_of_line line0 line1 actual xtol ytol = some (-2) ↔
        ((line0.y < line1.y ∧ line0.y - actual.y > ytol)
          ∨ (line1.y < line0.y ∧ actual.y - line0.y > ytol))))
    ∧ (InFlightArc.within_tol_of_line line0 line1 actual xtol ytol = some (-2) →
        line0 ≠ line1)
    ∧ (InFlightArc.within_tol_of_line line0 line1 actual xtol ytol = some (-2) →
        ∀ other : GCell, other.wf →
          (if line1.y = line0.y then other.x = actual.x else other.y = actual.y) →
          InFlightArc.within_tol_of_line line0 line1 other xtol ytol = some (-2)) := by
  unfold InFlightArc.backwardTestDefined at hdef
  by_cases hy : line1.y = line0.y
  · rw [if_pos hy] at hdef
    have hb := InFlightArc.backward_horiz line0 line1 actual xtol ytol h0 h1 ha
      hdef.1 hdef.2 hy
    refine ⟨fun _ => hb, fun h => absurd hy h, ?_, ?_⟩
    · intro h hEq
      have hx : line0.x = line1.x := by rw [hEq]
      have := hb.mp h
      omega
    · intro h other ho hsame
      rw [if_pos hy] at hsame
      rw [InFlightArc.backward_horiz line0 line1 other xtol ytol h0 h1 ho hdef.1 hdef.2 hy,
        hsame]
      exact hb.mp h
  · rw [if_neg hy] at hdef
    have hx : line1.x = line0.x := by
      rcases hax with h | h
      · exact h.symm
      · exact absurd h.symm hy
    have hb := InFlightArc.backward_vert line0 line1 actual xtol ytol h0 h1 ha
      hdef.1 hdef.2 hy hx
    refine ⟨fun h => absurd h hy, fun _ => hb, ?_, ?_⟩
    · intro _ hEq
      apply hy
      rw [hEq]
    · intro h other ho hsame
      rw [if_neg hy] at hsame
      rw [InFlightArc.backward_vert line0 line1 other xtol ytol h0 h1 ho hdef.1 hdef.2 hy hx,
        hsame]
      exact hb.mp h

/-- Witness for C12 (amended): a horizontal line running right, the actual
cell three columns behind its start and far off on the fixed axis; the
tolerance of the fixed axis is the largest `int`. -/
theorem within_tol_of_line_backward_step_witness :
    ((GCell.mk 9 0).y = (GCell.mk 4 0).y →
      (InFlightArc.within_tol_of_line (GCell.mk 4 0) (GCell.mk 9 0) (GCell.mk 1 7) 2
          2147483647 = some (-2) ↔
        (((GCell.mk 4 0).x < (GCell.mk 9 0).x ∧ (GCell.mk 4 0).x - (GCell.mk 1 7).x > 2)
          ∨ ((GCell.mk 9 0).x < (GCell.mk 4 0).x
              ∧ (GCell.mk 1 7).x - (GCell.mk 4 0).x > 2))))
    ∧ ((GCell.mk 9 0).y ≠ (GCell.mk 4 0).y →
      (InFlightArc.within_tol_of_line (GCell.mk 4 0) (GCell.mk 9 0) (GCell.mk 1 7) 2
          2147483647 = some (-2) ↔
        (((GCell.mk 4 0).y < (GCell.mk 9 0).y
            ∧ (GCell.mk 4 0).y - (GCell.mk 1 7).y > 2147483647)
          ∨ ((GCell.mk 9 0).y < (GCell.mk 4 0).y
              ∧ (GCell.mk 1 7).y - (GCell.mk 4 0).y > 2147483647))))
    ∧ (InFlightArc.within_tol_of_line (GCell.mk 4 0) (GCell.mk 9 0) (GCell.mk 1 7) 2
          2147483647 = some (-2) → GCell.mk 4 0 ≠ GCell.mk 9 0)
    ∧ (InFlightArc.within_tol_of_line (GCell.mk 4 0) (GCell.mk 9 0) (GCell.mk 1 7) 2
          2147483647 = some (-2) →
        ∀ other : GCell, other.wf →
          (if (GCell.mk 9 0).y = (GCell.mk 4 0).y then other.x = (GCell.mk 1 7).x
            else other.y = (GCell.mk 1 7).y) →
          InFlightArc.within_tol_of_line (GCell.mk 4 0) (GCell.mk 9 0) other 2 2147483647
            = some (-2)) :=
  within_tol_of_line_backward_step (GCell.mk 4 0) (GCell.mk 9 0) (GCell.mk 1 7) 2 2147483647
    (by decide) (by decide) (by decide) (by decide) (Or.inr rfl)

/-- C12 as stated fails: on the horizontal line from `(5, 0)` to `(0, 0)` with
`xtol = 2147483647` the sum `m0 + mtol` overflows the `int` range and wraps,
and `within_tol_of_line` returns `-2` for the cell `(3, 0)`, which lies on
the line and not behind `line0` at all. -/
theorem within_tol_of_line_backward_step_counterexample :
    (GCell.mk 5 0).wf ∧ (GCell.mk 0 0).wf ∧ (GCell.mk 3 0).wf
    ∧ isInt32 2147483647 ∧ isInt32 0
    ∧ (GCell.mk 0 0).y = (GCell.mk 5 0).y
    ∧ ¬ (InFlightArc.within_tol_of_line (GCell.mk 5 0) (GCell.mk 0 0) (GCell.mk 3 0)
          2147483647 0 = some (-2) ↔
        (((GCell.mk 5 0).x < (GCell.mk 0 0).x
            ∧ (GCell.mk 5 0).x - (GCell.mk 3 0).x > 2147483647)
          ∨ ((GCell.mk 0 0).x < (GCell.mk 5 0).x
              ∧ (GCell.mk 3 0).x - (GCell.mk 5 0).x > 2147483647))) := by
  decide

theorem InFlightArc.overshoot_nonneg (v p q : Int) : 0 ≤ InFlightArc.overshoot v p q := by
  unfold InFlightArc.overshoot
  split_ifs <;> omega

/-- No point of the interval between `p` and `q` is nearer to `v` than the
overshoot. -/
theorem InFlightArc.overshoot_le_abs (v p q c : Int) (h1 : min p q ≤ c) (h2 : c ≤ max p q) :
    InFlightArc.overshoot v p q ≤ |v - c| := by
  have hc := abs_cases (v - c)
  unfold InFlightArc.overshoot
  split_ifs <;> omega

/-- Some point of the interval between `p` and `q` is at the overshoot
distance from `v`: the nearer end, or `v` itself when it is inside. -/
theorem InFlightArc.overshoot_attained (v p q : Int) :
    ∃ c : Int, min p q ≤ c ∧ c ≤ max p q ∧ |v - c| = InFlightArc.overshoot v p q := by
  unfold InFlightArc.overshoot
  split_ifs with h1 h2
  · refine ⟨min p q, le_refl _, by omega, ?_⟩
    rw [abs_of_neg (by omega)]
    omega
  · refine ⟨max p q, by omega, le_refl _, ?_⟩
    rw [abs_of_pos (by omega)]
  · refine ⟨v, by omega, by omega, ?_⟩
    simp

/-- A non-negative result for a horizontal line is the offset in `y` plus
the overshoot in `x`. -/
theorem InFlightArc.nonneg_horiz (line0 line1 actual : GCell) (xtol ytol r : Int)
    (h0 : line0.wf) (h1 : line1.wf) (ha : actual.wf) (hy : line1.y = line0.y)
    (hr : InFlightArc.within_tol_of_line line0 line1 actual xtol ytol = some r)
    (hnn : 0 ≤ r) :
    r = |actual.y - line0.y| + InFlightArc.overshoot actual.x line0.x line1.x := by
  rw [InFlightArc.within_tol_of_line_horiz line0 line1 actual xtol ytol h0 h1 ha hy] at hr
  unfold InFlightArc.overshoot
  split_ifs at hr with c1 c2 c3 c4
  · injection hr with hr; omega
  · injection hr with hr; omega
  · injection hr with hr
    rw [if_pos c3]
    omega
  · injection hr with hr
    rw [if_neg c3, if_pos c4]
    omega
  · injection hr with hr
    rw [if_neg c3, if_neg c4]
    omega

/-- A non-negative result for a vertical line is the offset in `x` plus the
overshoot in `y`. -/
theorem InFlightArc.nonneg_vert (line0 line1 actual : GCell) (xtol ytol r : Int)
    (h0 : line0.wf) (h1 : line1.wf) (ha : actual.wf)
    (hy : line1.y ≠ line0.y) (hx : line1.x = line0.x)
    (hr : InFlightArc.within_tol_of_line line0 line1 actual xtol ytol = some r)
    (hnn : 0 ≤ r) :
    r = |actual.x - line0.x| + InFlightArc.overshoot actual.y line0.y line1.y := by
  rw [InFlightArc.within_tol_of_line_vert line0 line1 actual xtol ytol h0 h1 ha hy hx] at hr
  unfold InFlightArc.overshoot
  split_ifs at hr with c1 c2 c3 c4
  · injection hr with hr; omega
  · injection hr with hr; omega
  · injection hr with hr
    rw [if_pos c3]
    omega
  · injection hr with hr
    rw [if_neg c3, if_pos c4]
    omega
  · injection hr with hr
    rw [if_neg c3, if_neg c4]
    omega

/-- A cell on the segment between two `int16_t` cells is an `int16_t` cell. -/
theorem InFlightArc.onSegment_wf (line0 line1 c : GCell) (h0 : line0.wf) (h1 : line1.wf)
    (hc : InFlightArc.onSegment line0 line1 c) : c.wf := by
  have a1 : -32768 ≤ line0.x ∧ line0.x ≤ 32767 := h0.1
  have a2 : -32768 ≤ line0.y ∧ line0.y ≤ 32767 := h0.2
  have a3 : -32768 ≤ line1.x ∧ line1.x ≤ 32767 := h1.1
  have a4 : -32768 ≤ line1.y ∧ line1.y ≤ 32767 := h1.2
  unfold InFlightArc.onSegment at hc
  exact ⟨⟨by omega, by omega⟩, ⟨by omega, by omega⟩⟩

/-- C13: whenever `within_tol_of_line` returns a non-negative value `r` on
cells with `int16_t` coordinates (the line is then axis-aligned), `r` is the
offset on the fixed axis plus the overshoot past the nearer end on the moving
axis, and `r` is the minimum of `actual.mdist(c)` over the cells `c` on the
segment from `line0` to `line1`: some cell of the segment is at distance `r`
and none is nearer. -/
theorem within_tol_of_line_nonneg_is_segment_distance (line0 line1 actual : GCell)
    (xtol ytol r : Int) (h0 : line0.wf) (h1 : line1.wf) (ha : actual.wf)
    (hr : InFlightArc.within_tol_of_line line0 line1 actual xtol ytol = some r)
    (hnn : 0 ≤ r) :
    (line0.x = line1.x ∨ line0.y = line1.y)
    ∧ (line1.y = line0.y →
        r = |actual.y - line0.y| + InFlightArc.overshoot actual.x line0.x line1.x)
    ∧ (line1.y ≠ line0.y →
        r = |actual.x - line0.x| + InFlightArc.overshoot actual.y line0.y line1.y)
    ∧ (∃ c : GCell, InFlightArc.onSegment line0 line1 c ∧ actual.mdist c = r)
    ∧ (∀ c : GCell, InFlightArc.onSegment line0 line1 c → r ≤ actual.mdist c) := by
  have hdist : ∀ c : GCell, InFlightArc.onSegment line0 line1 c →
      actual.mdist c = |actual.x - c.x| + |actual.y - c.y| := by
    intro c hc
    exact GCell.mdist_eq actual c ha (InFlightArc.onSegment_wf line0 line1 c h0 h1 hc)
  by_cases hy : line1.y = line0.y
  · have hval := InFlightArc.nonneg_horiz line0 line1 actual xtol ytol r h0 h1 ha hy hr hnn
    refine ⟨Or.inr hy.symm, fun _ => hval, fun h => absurd hy h, ?_, ?_⟩
    · obtain ⟨cx, hc1, hc2, hc3⟩ := InFlightArc.overshoot_attained actual.x line0.x line1.x
      have hseg : InFlightArc.onSegment line0 line1 (GCell.mk cx line0.y) := by
        unfold InFlightArc.onSegment
        refine ⟨hc1, hc2, ?_, ?_⟩
        · rw [hy]; simp
        · rw [hy]; simp
      refine ⟨GCell.mk cx line0.y, hseg, ?_⟩
      rw [hdist _ hseg, hval]
      show |actual.x - cx| + |actual.y - line0.y| = _
      rw [hc3]
      omega
    · intro c hc
      rw [hdist c hc, hval]
      have hcy : c.y = line0.y := by
        unfold InFlightArc.onSegment at hc
        rw [hy] at hc
        omega
      have hov := InFlightArc.overshoot_le_abs actual.x line0.x line1.x c.x hc.1 hc.2.1
      rw [hcy]
      omega
  · by_cases hx : line1.x = line0.x
    · have hval := InFlightArc.nonneg_vert line0 line1 actual xtol ytol r h0 h1 ha hy hx hr hnn
      refine ⟨Or.inl hx.symm, fun h => absurd h hy, fun _ => hval, ?_, ?_⟩
      · obtain ⟨cy, hc1, hc2, hc3⟩ := InFlightArc.overshoot_attained actual.y line0.y line1.y
        have hseg : InFlightArc.onSegment line0 line1 (GCell.mk line0.x cy) := by
          unfold InFlightArc.onSegment
          refine ⟨?_, ?_, hc1, hc2⟩
          · rw [hx]; simp
          · rw [hx]; simp
        refine ⟨GCell.mk line0.x cy, hseg, ?_⟩
        rw [hdist _ hseg, hval]
        show |actual.x - line0.x| + |actual.y - cy| = _
        rw [hc3]
      · intro c hc
        rw [hdist c hc, hval]
        have hcx : c.x = line0.x := by
          unfold InFlightArc.onSegment at hc
          rw [hx] at hc
          omega
        have hov := InFlightArc.overshoot_le_abs actual.y line0.y line1.y c.y hc.2.2.1 hc.2.2.2
        rw [hcx]
        omega
    · rw [InFlightArc.within_tol_of_line_diag line0 line1 actual xtol ytol hx hy] at hr
      cases hr

/-- Witness for C13: a horizontal line from column 0 to column 5, the actual
cell two columns past the far end and one row off, at distance 3. -/
theorem within_tol_of_line_nonneg_is_segment_distance_witness :
    ((GCell.mk 0 0).x = (GCell.mk 5 0).x ∨ (GCell.mk 0 0).y = (GCell.mk 5 0).y)
    ∧ ((GCell.mk 5 0).y = (GCell.mk 0 0).y →
        (3 : Int) = |(GCell.mk 7 1).y - (GCell.mk 0 0).y|
          + InFlightArc.overshoot (GCell.mk 7 1).x (GCell.mk 0 0).x (GCell.mk 5 0).x)
    ∧ ((GCell.mk 5 0).y ≠ (GCell.mk 0 0).y →
        (3 : Int) = |(GCell.mk 7 1).x - (GCell.mk 0 0).x|
          + InFlightArc.overshoot (GCell.mk 7 1).y (GCell.mk 0 0).y (GCell.mk 5 0).y)
    ∧ (∃ c : GCell, InFlightArc.onSegment (GCell.mk 0 0) (GCell.mk 5 0) c
        ∧ (GCell.mk 7 1).mdist c = 3)
    ∧ (∀ c : GCell, InFlightArc.onSegment (GCell.mk 0 0) (GCell.mk 5 0) c →
        3 ≤ (GCell.mk 7 1).mdist c) :=
  within_tol_of_line_nonneg_is_segment_distance (GCell.mk 0 0) (GCell.mk 5 0) (GCell.mk 7 1)
    2 1 3 (by decide) (by decide) (by decide) (by decide) (by decide)

/-- C17: for an axis-aligned pair of cells with `int16_t` coordinates, any
actual cell and any tolerances, if neither
`within_tol_of_line(line0, line1, ...)` nor
`within_tol_of_line(line1, line0, ...)` is `-2`, the two calls return the
same value. -/
theorem within_tol_of_line_direction_independent (line0 line1 actual : GCell)
    (xtol ytol : Int) (h0 : line0.wf) (h1 : line1.wf) (ha : actual.wf)
    (hax : line0.x = line1.x ∨ line0.y = line1.y)
    (hf : InFlightArc.within_tol_of_line line0 line1 actual xtol ytol ≠ some (-2))
    (hb : InFlightArc.within_tol_of_line line1 line0 actual xtol ytol ≠ some (-2)) :
    InFlightArc.within_tol_of_line line0 line1 actual xtol ytol
      = InFlightArc.within_tol_of_line line1 line0 actual xtol ytol := by
  by_cases hy : line1.y = line0.y
  · rw [InFlightArc.within_tol_of_line_horiz line0 line1 actual xtol ytol h0 h1 ha hy] at hf ⊢
    rw [InFlightArc.within_tol_of_line_horiz line1 line0 actual xtol ytol h1 h0 ha hy.symm,
      hy, min_comm line1.x line0.x, max_comm line1.x line0.x] at hb ⊢
    by_cases c1 : (line1.x > line0.x ∧ actual.x < wrapInt32 (line0.x - xtol))
        ∨ (line1.x < line0.x ∧ actual.x > wrapInt32 (line0.x + xtol))
    · rw [if_pos c1] at hf
      exact absurd rfl hf
    · by_cases c2 : (line0.x > line1.x ∧ actual.x < wrapInt32 (line1.x - xtol))
          ∨ (line0.x < line1.x ∧ actual.x > wrapInt32 (line1.x + xtol))
      · rw [if_pos c2] at hb
        exact absurd rfl hb
      · rw [if_neg c1, if_neg c2]
  · have hx : line1.x = line0.x := by
      rcases hax with h | h
      · exact h.symm
      · exact absurd h.symm hy
    have hy' : line0.y ≠ line1.y := fun h => hy h.symm
    rw [InFlightArc.within_tol_of_line_vert line0 line1 actual xtol ytol h0 h1 ha hy hx] at hf ⊢
    rw [InFlightArc.within_tol_of_line_vert line1 line0 actual xtol ytol h1 h0 ha hy' hx.symm,
      hx, min_comm line1.y line0.y, max_comm line1.y line0.y] at hb ⊢
    by_cases c1 : (line1.y > line0.y ∧ actual.y < wrapInt32 (line0.y - ytol))
        ∨ (line1.y < line0.y ∧ actual.y > wrapInt32 (line0.y + ytol))
    · rw [if_pos c1] at hf
      exact absurd rfl hf
    · by_cases c2 : (line0.y > line1.y ∧ actual.y < wrapInt32 (line1.y - ytol))
          ∨ (line0.y < line1.y ∧ actual.y > wrapInt32 (line1.y + ytol))
      · rw [if_pos c2] at hb
        exact absurd rfl hb
      · rw [if_neg c1, if_neg c2]

/-- Witness for C17: a vertical line walked in both directions, the actual
cell beside its middle. -/
theorem within_tol_of_line_direction_independent_witness :
    InFlightArc.within_tol_of_line (GCell.mk 3 1) (GCell.mk 3 8) (GCell.mk 4 5) 1 2
      = InFlightArc.within_tol_of_line (GCell.mk 3 8) (GCell.mk 3 1) (GCell.mk 4 5) 1 2 :=
  within_tol_of_line_direction_independent (GCell.mk 3 1) (GCell.mk 3 8) (GCell.mk 4 5) 1 2
    (by decide) (by decide) (by decide) (Or.inl rfl) (by decide) (by decide)

/-- C18: when `line0 == line1`, on cells with `int16_t` coordinates,
`within_tol_of_line` never returns `-2`, returns `line0.mdist(actual)`
whenever `|actual.y - line0.y| <= ytol` and `-1` otherwise (the line is
treated as horizontal: only the `y` offset is bounded), and its result is the
same for every `xtol`. -/
theorem within_tol_of_line_degenerate (line0 line1 actual : GCell) (xtol ytol : Int)
    (h0 : line0.wf) (ha : actual.wf) (heq : line0.eq line1 = true) :
    InFlightArc.within_tol_of_line line0 line1 actual xtol ytol ≠ some (-2)
    ∧ (|actual.y - line0.y| ≤ ytol →
        InFlightArc.within_tol_of_line line0 line1 actual xtol ytol
          = some (line0.mdist actual))
    ∧ (¬ |actual.y - line0.y| ≤ ytol →
        InFlightArc.within_tol_of_line line0 line1 actual xtol ytol = some (-1))
    ∧ (∀ xtol' : Int, InFlightArc.within_tol_of_line line0 line1 actual xtol' ytol
        = InFlightArc.within_tol_of_line line0 line1 actual xtol ytol) := by
  have hl : line0 = line1 := (GCell.eq_iff line0 line1).mp heq
  subst hl
  have hm := GCell.mdist_eq line0 actual h0 ha
  have sx := abs_sub_comm line0.x actual.x
  have sy := abs_sub_comm line0.y actual.y
  have cx := abs_cases (actual.x - line0.x)
  have ny := abs_nonneg (actual.y - line0.y)
  have hval : ∀ t : Int, InFlightArc.within_tol_of_line line0 line0 actual t ytol
      = if |actual.y - line0.y| > ytol then some (-1)
        else some (|actual.x - line0.x| + |actual.y - line0.y|) := by
    intro t
    rw [InFlightArc.within_tol_of_line_horiz line0 line0 actual t ytol h0 h0 ha rfl]
    have c1 : ¬ ((line0.x > line0.x ∧ actual.x < wrapInt32 (line0.x - t))
        ∨ (line0.x < line0.x ∧ actual.x > wrapInt32 (line0.x + t))) := by omega
    rw [if_neg c1, min_self, max_self]
    split_ifs with c2 c3 c4
    · rfl
    · congr 1; omega
    · congr 1; omega
    · congr 1; omega
  rw [hm, sx, sy]
  refine ⟨?_, ?_, ?_, ?_⟩
  · rw [hval]
    split_ifs with c
    · intro h; injection h with h; omega
    · intro h; injection h with h; omega
  · intro h
    rw [hval, if_neg (by omega)]
  · intro h
    rw [hval, if_pos (by omega)]
  · intro t
    rw [hval, hval]

/-- Witness for C18: a single-cell line, the actual cell far off in `x`
with no `x` tolerance at all, one row off in `y`. -/
theorem within_tol_of_line_degenerate_witness :
    InFlightArc.within_tol_of_line (GCell.mk 2 2) (GCell.mk 2 2) (GCell.mk 40 3) 0 1
      ≠ some (-2)
    ∧ (|(GCell.mk 40 3).y - (GCell.mk 2 2).y| ≤ 1 →
        InFlightArc.within_tol_of_line (GCell.mk 2 2) (GCell.mk 2 2) (GCell.mk 40 3) 0 1
          = some ((GCell.mk 2 2).mdist (GCell.mk 40 3)))
    ∧ (¬ |(GCell.mk 40 3).y - (GCell.mk 2 2).y| ≤ 1 →
        InFlightArc.within_tol_of_line (GCell.mk 2 2) (GCell.mk 2 2) (GCell.mk 40 3) 0 1
          = some (-1))
    ∧ (∀ xtol' : Int,
        InFlightArc.within_tol_of_line (GCell.mk 2 2) (GCell.mk 2 2) (GCell.mk 40 3) xtol' 1
          = InFlightArc.within_tol_of_line (GCell.mk 2 2) (GCell.mk 2 2) (GCell.mk 40 3) 0 1) :=
  within_tol_of_line_degenerate (GCell.mk 2 2) (GCell.mk 2 2) (GCell.mk 40 3) 0 1
    (by decide) (by decide) (by decide)

end Feline

namespace PlacerStatic

/-! ### StaticPlacer.add_cell -/

section

variable {Rect Num Grid Cell : Type}

theorem StaticPlacer.run_append (area : Rect → Num) (add : Num → Num → Num)
    (p : StaticPlacer Rect Num Grid Cell) (calls : List (Call Rect Num Cell))
    (c : Call Rect Num Cell) :
    StaticPlacer.run area add p (calls ++ [c])
      = StaticPlacer.step area add (StaticPlacer.run area add p calls) c := by
  unfold StaticPlacer.run
  rw [List.foldl_append]
  rfl

/-- A spacer call appends a spacer to `mcells`, leaves `ccells` alone and
returns the old size of `mcells`. -/
theorem StaticPlacer.add_cell_spacer (area : Rect → Num) (add : Num → Num → Num)
    (p : StaticPlacer Rect Num Grid Cell) (rect : Rect) (group : Int) (x y : Num) :
    (∃ m : MoveCell Rect Num, m.is_spacer = true
        ∧ (StaticPlacer.add_cell area add p rect group x y none).1.mcells = p.mcells ++ [m])
    ∧ (StaticPlacer.add_cell area add p rect group x y none).1.ccells = p.ccells
    ∧ (StaticPlacer.add_cell area add p rect group x y none).2
        = Outcome.returned (Feline.wrapInt32 (p.mcells.length : Int)) :=
  ⟨⟨_, rfl, rfl⟩, rfl, rfl⟩

/-- A call with a cell whose assertion fails: the call ends there. -/
theorem StaticPlacer.add_cell_concrete_fail (area : Rect → Num) (add : Num → Num → Num)
    (p : StaticPlacer Rect Num Grid Cell) (rect : Rect) (group : Int) (x y : Num) (c : Cell)
    (h : Feline.wrapInt32 (p.mcells.length : Int) ≠ Feline.wrapInt32 (p.ccells.length : Int)) :
    (StaticPlacer.add_cell area add p rect group x y (some c)).2 = Outcome.assertion_failure := by
  simp only [StaticPlacer.add_cell]
  rw [if_neg h]

/-- A call with a cell whose assertion holds: both tables have grown by one
entry, the new `ccells` entry holds the cell, and the call returns the old
size of `mcells` or throws on the group. -/
theorem StaticPlacer.add_cell_concrete_pass (area : Rect → Num) (add : Num → Num → Num)
    (p : StaticPlacer Rect Num Grid Cell) (rect : Rect) (group : Int) (x y : Num) (c : Cell)
    (h : Feline.wrapInt32 (p.mcells.length : Int) = Feline.wrapInt32 (p.ccells.length : Int)) :
    (∃ m : MoveCell Rect Num,
        (StaticPlacer.add_cell area add p rect group x y (some c)).1.mcells = p.mcells ++ [m])
    ∧ (∃ cc : ConcreteCell Cell, cc.base_cell = c
        ∧ (StaticPlacer.add_cell area add p rect group x y (some c)).1.ccells
            = p.ccells ++ [cc])
    ∧ ((StaticPlacer.add_cell area add p rect group x y (some c)).2
          = Outcome.returned (Feline.wrapInt32 (p.mcells.length : Int))
        ∨ (StaticPlacer.add_cell area add p rect group x y (some c)).2
          = Outcome.out_of_range) := by
  simp only [StaticPlacer.add_cell]
  rw [if_pos h]
  by_cases hg : 0 ≤ group
  · rw [if_pos hg]
    cases hgr : p.groups[group.toNat]? with
    | none => exact ⟨⟨_, rfl⟩, ⟨_, rfl, rfl⟩, Or.inr rfl⟩
    | some g => exact ⟨⟨_, rfl⟩, ⟨_, rfl, rfl⟩, Or.inl rfl⟩
  · rw [if_neg hg]
    exact ⟨⟨_, rfl⟩, ⟨_, rfl, rfl⟩, Or.inr rfl⟩

/-- The index of an appended entry and the indices before it. -/
theorem getElem?_snoc_cases {α : Type} (l : List α) (a b : α) (i : Nat)
    (h : (l ++ [a])[i]? = some b) : (i < l.length ∧ l[i]? = some b) ∨ (i = l.length ∧ a = b) := by
  rw [List.getElem?_append] at h
  split_ifs at h with hlt
  · exact Or.inl ⟨hlt, h⟩
  · right
    have hi : i - l.length < [a].length := by
      by_contra hge
      rw [List.getElem?_eq_none (by omega)] at h
      cases h
    simp only [List.length_singleton] at hi
    have hz : i - l.length = 0 := by omega
    rw [hz] at h
    refine ⟨by omega, ?_⟩
    simpa using h

/-- The state after a run of calls from empty tables in which no call fails
the assertion: every call has appended to `mcells`, a returned index is the
position of the call, `ccells` holds the cells of the first calls, in order,
and all later calls are spacer calls whose `mcells` entry is a spacer. -/
theorem StaticPlacer.run_invariant (area : Rect → Num) (add : Num → Num → Num)
    (groups : List (PlacerGroup Num Grid)) (calls : List (Call Rect Num Cell)) :
    calls.length < 2147483648 →
    Outcome.assertion_failure ∉ (StaticPlacer.run area add (StaticPlacer.start groups) calls).2 →
    (StaticPlacer.run area add (StaticPlacer.start groups) calls).1.mcells.length = calls.length
    ∧ (StaticPlacer.run area add (StaticPlacer.start groups) calls).2.length = calls.length
    ∧ (∀ (i : Nat) (idx : Int),
        (StaticPlacer.run area add (StaticPlacer.start groups) calls).2[i]?
          = some (Outcome.returned idx) → idx = (i : Int))
    ∧ (StaticPlacer.run area add (StaticPlacer.start groups) calls).1.ccells.length
        ≤ calls.length
    ∧ (∀ (i : Nat) (cc : ConcreteCell Cell),
        (StaticPlacer.run area add (StaticPlacer.start groups) calls).1.ccells[i]? = some cc →
        ∃ call : Call Rect Num Cell, calls[i]? = some call ∧ call.ci = some cc.base_cell)
    ∧ (∀ (i : Nat) (call : Call Rect Num Cell), calls[i]? = some call →
        (StaticPlacer.run area add (StaticPlacer.start groups) calls).1.ccells.length ≤ i →
        call.ci = none
        ∧ ∃ m : MoveCell Rect Num,
            (StaticPlacer.run area add (StaticPlacer.start groups) calls).1.mcells[i]? = some m
            ∧ m.is_spacer = true) := by
  induction calls using List.reverseRecOn with
  | nil =>
    intro _ _
    have hrun : StaticPlacer.run area add (StaticPlacer.start groups)
        ([] : List (Call Rect Num Cell)) = (StaticPlacer.start groups, []) := rfl
    rw [hrun]
    refine ⟨rfl, rfl, ?_, le_refl _, ?_, ?_⟩
    · intro i idx h
      simp at h
    · intro i cc h
      simp [StaticPlacer.start] at h
    · intro i call h
      simp at h
  | append_singleton l c ih =>
    intro hlen hpass
    rw [StaticPlacer.run_append] at hpass ⊢
    simp only [StaticPlacer.step] at hpass ⊢
    simp only [List.length_append, List.length_singleton] at hlen ⊢
    have hpass' : Outcome.assertion_failure
        ∉ (StaticPlacer.run area add (StaticPlacer.start groups) l).2 := by
      intro hin
      exact hpass (List.mem_append_left _ hin)
    obtain ⟨iA, iB, iC, iD, iE, iF⟩ := ih (by omega) hpass'
    generalize StaticPlacer.run area add (StaticPlacer.start groups) l = r at *
    obtain ⟨rect, group, x, y, ci⟩ := c
    dsimp only at hpass ⊢
    have hwm : Feline.wrapInt32 (r.1.mcells.length : Int) = (l.length : Int) := by
      rw [iA]
      exact Feline.wrapInt32_of_isInt32 _ ⟨by omega, by omega⟩
    cases ci with
    | none =>
      obtain ⟨⟨m, hsp, hm⟩, hc, ho⟩ :=
        StaticPlacer.add_cell_spacer area add r.1 rect group x y
      rw [hm, hc, ho, hwm]
      refine ⟨by simp [iA], by simp [iB], ?_, by omega, ?_, ?_⟩
      · intro i idx h
        rcases getElem?_snoc_cases _ _ _ i h with ⟨_, h'⟩ | ⟨hi, h'⟩
        · exact iC i idx h'
        · have hq := Outcome.returned.inj h'
          rw [hi, iB, ← hq]
      · intro i cc h
        obtain ⟨call, h1, h2⟩ := iE i cc h
        have hi : i < l.length := by
          rw [List.getElem?_eq_some] at h1
          exact h1.1
        exact ⟨call, by rw [List.getElem?_append_left hi]; exact h1, h2⟩
      · intro i call h hge
        rcases getElem?_snoc_cases _ _ _ i h with ⟨hi, h'⟩ | ⟨hi, h'⟩
        · obtain ⟨f1, m', f2, f3⟩ := iF i call h' hge
          refine ⟨f1, m', ?_, f3⟩
          rw [List.getElem?_append_left (by omega)]
          exact f2
        · refine ⟨by rw [← h'], m, ?_, hsp⟩
          rw [hi, ← iA]
          exact List.getElem?_concat_length _ _
    | some cell =>
      have hidx : Feline.wrapInt32 (r.1.mcells.length : Int)
          = Feline.wrapInt32 (r.1.ccells.length : Int) := by
        by_contra hne
        apply hpass
        apply List.mem_append_right
        rw [StaticPlacer.add_cell_concrete_fail area add r.1 rect group x y cell hne]
        exact List.mem_singleton_self _
      have hwc : Feline.wrapInt32 (r.1.ccells.length : Int) = (r.1.ccells.length : Int) :=
        Feline.wrapInt32_of_isInt32 _ ⟨by omega, by omega⟩
      have hcl : r.1.ccells.length = l.length := by
        rw [hwm, hwc] at hidx
        omega
      obtain ⟨⟨m, hm⟩, ⟨cc0, hcc0, hc⟩, ho⟩ :=
        StaticPlacer.add_cell_concrete_pass area add r.1 rect group x y cell hidx
      rw [hm, hc]
      refine ⟨by simp [iA], by simp [iB], ?_, by simp [hcl], ?_, ?_⟩
      · intro i idx h
        rcases getElem?_snoc_cases _ _ _ i h with ⟨_, h'⟩ | ⟨hi, h'⟩
        · exact iC i idx h'
        · rcases ho with ho | ho
          · rw [ho, hwm] at h'
            have hq := Outcome.returned.inj h'
            rw [hi, iB, ← hq]
          · rw [ho] at h'
            cases h'
      · intro i cc h
        rcases getElem?_snoc_cases _ _ _ i h with ⟨hi, h'⟩ | ⟨hi, h'⟩
        · obtain ⟨call, h1, h2⟩ := iE i cc h'
          exact ⟨call, by rw [List.getElem?_append_left (by omega)]; exact h1, h2⟩
        · refine ⟨Call.mk rect group x y (some cell), ?_, ?_⟩
          · rw [hi, hcl]
            exact List.getElem?_concat_length _ _
          · rw [← h', hcc0]
      · intro i call h hge
        exfalso
        simp only [List.length_append, List.length_singleton] at hge
        have hnone : (l ++ [Call.mk rect group x y (some cell)])[i]? = none :=
          List.getElem?_eq_none (by simp; omega)
        rw [hnone] at h
        cases h

/-- No call changes the number of groups. -/
theorem StaticPlacer.add_cell_groups_length (area : Rect → Num) (add : Num → Num → Num)
    (p : StaticPlacer Rect Num Grid Cell) (rect : Rect) (group : Int) (x y : Num)
    (ci : Option Cell) :
    (StaticPlacer.add_cell area add p rect group x y ci).1.groups.length = p.groups.length := by
  cases ci with
  | none => rfl
  | some c =>
    simp only [StaticPlacer.add_cell]
    by_cases h : Feline.wrapInt32 (p.mcells.length : Int)
        = Feline.wrapInt32 (p.ccells.length : Int)
    · rw [if_pos h]
      by_cases hg : 0 ≤ group
      · rw [if_pos hg]
        cases hgr : p.groups[group.toNat]? with
        | none => rfl
        | some g => simp
      · rw [if_neg hg]
    · rw [if_neg h]

/-- A call with a cell whose assertion holds and whose group exists returns
the old size of `mcells`. -/
theorem StaticPlacer.add_cell_concrete_returns (area : Rect → Num) (add : Num → Num → Num)
    (p : StaticPlacer Rect Num Grid Cell) (rect : Rect) (group : Int) (x y : Num) (c : Cell)
    (h : Feline.wrapInt32 (p.mcells.length : Int) = Feline.wrapInt32 (p.ccells.length : Int))
    (hg : 0 ≤ group) (hlt : group < (p.groups.length : Int)) :
    (StaticPlacer.add_cell area add p rect group x y (some c)).2
      = Outcome.returned (Feline.wrapInt32 (p.mcells.length : Int)) := by
  have hn : group.toNat < p.groups.length := by omega
  simp only [StaticPlacer.add_cell]
  rw [if_pos h, if_pos hg, List.getElem?_eq_getElem hn]

/-- In a run from empty tables in which no call fails the assertion the
number of groups stays the same, and every spacer call and every call with a
cell and an existing group returns its position. -/
theorem StaticPlacer.run_returns (area : Rect → Num) (add : Num → Num → Num)
    (groups : List (PlacerGroup Num Grid)) (calls : List (Call Rect Num Cell)) :
    calls.length < 2147483648 →
    Outcome.assertion_failure ∉ (StaticPlacer.run area add (StaticPlacer.start groups) calls).2 →
    (StaticPlacer.run area add (StaticPlacer.start groups) calls).1.groups.length
        = groups.length
    ∧ (∀ (i : Nat) (call : Call Rect Num Cell), calls[i]? = some call →
        (call.ci = none ∨ (0 ≤ call.group ∧ call.group < (groups.length : Int))) →
        (StaticPlacer.run area add (StaticPlacer.start groups) calls).2[i]?
          = some (Outcome.returned (i : Int))) := by
  induction calls using List.reverseRecOn with
  | nil =>
    intro _ _
    refine ⟨rfl, ?_⟩
    intro i call h
    simp at h
  | append_singleton l c ih =>
    intro hlen hpass
    have hpass0 := hpass
    rw [StaticPlacer.run_append] at hpass ⊢
    simp only [StaticPlacer.step] at hpass ⊢
    simp only [List.length_append, List.length_singleton] at hlen
    have hpass' : Outcome.assertion_failure
        ∉ (StaticPlacer.run area add (StaticPlacer.start groups) l).2 := by
      intro hin
      exact hpass (List.mem_append_left _ hin)
    obtain ⟨iA, iB, _, iD, _, _⟩ :=
      StaticPlacer.run_invariant area add groups l (by omega) hpass'
    obtain ⟨iG, iH⟩ := ih (by omega) hpass'
    generalize StaticPlacer.run area add (StaticPlacer.start groups) l = r at *
    have hwm : Feline.wrapInt32 (r.1.mcells.length : Int) = (l.length : Int) := by
      rw [iA]
      exact Feline.wrapInt32_of_isInt32 _ ⟨by omega, by omega⟩
    refine ⟨by rw [StaticPlacer.add_cell_groups_length, iG], ?_⟩
    intro i call hcall hok
    rcases getElem?_snoc_cases _ _ _ i hcall with ⟨hi, h'⟩ | ⟨hi, h'⟩
    · rw [List.getElem?_append_left (by omega)]
      exact iH i call h' hok
    · rw [hi, ← iB, List.getElem?_concat_length, iB]
      refine congrArg some ?_
      subst h'
      obtain ⟨rect, group, x, y, ci⟩ := c
      dsimp only at hpass hok ⊢
      cases ci with
      | none =>
        rw [(StaticPlacer.add_cell_spacer area add r.1 rect group x y).2.2, hwm]
      | some cell =>
        have hidx : Feline.wrapInt32 (r.1.mcells.length : Int)
            = Feline.wrapInt32 (r.1.ccells.length : Int) := by
          by_contra hne
          apply hpass
          apply List.mem_append_right
          rw [StaticPlacer.add_cell_concrete_fail area add r.1 rect group x y cell hne]
          exact List.mem_singleton_self _
        rcases hok with hok | ⟨hg, hlt⟩
        · cases hok
        · rw [StaticPlacer.add_cell_concrete_returns area add r.1 rect group x y cell hidx hg
            (by rw [iG]; exact hlt), hwm]

/-- C14: starting from empty `mcells` and `ccells`, after any sequence of
fewer than `2^31` `add_cell` calls none of which fails the assertion, every
call has added one entry to `mcells`, every spacer call and every call with
a cell and an existing group has returned, each call that returned has
returned the number of cells added before it, `ccells.size() <= mcells.size()`, every
concrete cell passed in by call `i` is `ccells[i].base_cell`, every `mcells`
entry at an index `>= ccells.size()` is a spacer, and a further call with a
non-null cell fails the assertion exactly when some earlier call added a
spacer. -/
theorem add_cell_indices_line_up (area : Rect → Num) (add : Num → Num → Num)
    (groups : List (PlacerGroup Num Grid)) (calls : List (Call Rect Num Cell))
    (hlen : calls.length < 2147483648)
    (hpass : Outcome.assertion_failure
      ∉ (StaticPlacer.run area add (StaticPlacer.start groups) calls).2) :
    (StaticPlacer.run area add (StaticPlacer.start groups) calls).1.mcells.length = calls.length
    ∧ (∀ (i : Nat) (call : Call Rect Num Cell), calls[i]? = some call →
        (call.ci = none ∨ (0 ≤ call.group ∧ call.group < (groups.length : Int))) →
        (StaticPlacer.run area add (StaticPlacer.start groups) calls).2[i]?
          = some (Outcome.returned (i : Int)))
    ∧ (∀ (i : Nat) (idx : Int),
        (StaticPlacer.run area add (StaticPlacer.start groups) calls).2[i]?
          = some (Outcome.returned idx) → idx = (i : Int))
    ∧ (StaticPlacer.run area add (StaticPlacer.start groups) calls).1.ccells.length
        ≤ (StaticPlacer.run area add (StaticPlacer.start groups) calls).1.mcells.length
    ∧ (∀ (i : Nat) (call : Call Rect Num Cell) (c : Cell),
        calls[i]? = some call → call.ci = some c →
        ∃ cc : ConcreteCell Cell,
          (StaticPlacer.run area add (StaticPlacer.start groups) calls).1.ccells[i]? = some cc
          ∧ cc.base_cell = c)
    ∧ (∀ (j : Nat) (m : MoveCell Rect Num),
        (StaticPlacer.run area add (StaticPlacer.start groups) calls).1.ccells.length ≤ j →
        (StaticPlacer.run area add (StaticPlacer.start groups) calls).1.mcells[j]? = some m →
        m.is_spacer = true)
    ∧ (∀ (rect : Rect) (group : Int) (x y : Num) (c : Cell),
        (StaticPlacer.add_cell area add
            (StaticPlacer.run area add (StaticPlacer.start groups) calls).1
            rect group x y (some c)).2 = Outcome.assertion_failure
        ↔ ∃ call ∈ calls, call.ci = none) := by
  obtain ⟨iA, _, iC, iD, iE, iF⟩ := StaticPlacer.run_invariant area add groups calls hlen hpass
  obtain ⟨_, iH⟩ := StaticPlacer.run_returns area add groups calls hlen hpass
  generalize StaticPlacer.run area add (StaticPlacer.start groups) calls = r at *
  have hwm : Feline.wrapInt32 (r.1.mcells.length : Int) = (r.1.mcells.length : Int) :=
    Feline.wrapInt32_of_isInt32 _ ⟨by omega, by omega⟩
  have hwc : Feline.wrapInt32 (r.1.ccells.length : Int) = (r.1.ccells.length : Int) :=
    Feline.wrapInt32_of_isInt32 _ ⟨by omega, by omega⟩
  refine ⟨iA, iH, iC, by omega, ?_, ?_, ?_⟩
  · intro i call c hcall hci
    by_cases hi : i < r.1.ccells.length
    · refine ⟨r.1.ccells[i], List.getElem?_eq_getElem hi, ?_⟩
      obtain ⟨call', h1, h2⟩ := iE i _ (List.getElem?_eq_getElem hi)
      rw [hcall] at h1
      have hEq : call = call' := Option.some.inj h1
      rw [← hEq, hci] at h2
      exact (Option.some.inj h2).symm
    · have := (iF i call hcall (by omega)).1
      rw [this] at hci
      cases hci
  · intro j m hj hm
    have hjlt : j < calls.length := by
      rw [List.getElem?_eq_some] at hm
      have := hm.1
      omega
    obtain ⟨_, m', h1, h2⟩ := iF j calls[j] (List.getElem?_eq_getElem hjlt) hj
    rw [hm] at h1
    rw [Option.some.inj h1]
    exact h2
  · intro rect group x y c
    constructor
    · intro hfail
      have hne : r.1.ccells.length ≠ calls.length := by
        intro hEq
        have hidx : Feline.wrapInt32 (r.1.mcells.length : Int)
            = Feline.wrapInt32 (r.1.ccells.length : Int) := by
          rw [iA, hEq]
        rcases (StaticPlacer.add_cell_concrete_pass area add r.1 rect group x y c hidx).2.2
          with h | h
        · rw [h] at hfail
          cases hfail
        · rw [h] at hfail
          cases hfail
      have hlt : r.1.ccells.length < calls.length := by omega
      have hget := List.getElem?_eq_getElem hlt
      exact ⟨calls[r.1.ccells.length], List.getElem_mem hlt,
        (iF _ _ hget (le_refl _)).1⟩
    · rintro ⟨call, hmem, hci⟩
      obtain ⟨i, hi⟩ := List.mem_iff_getElem?.mp hmem
      have hge : r.1.ccells.length ≤ i := by
        by_contra hlt
        obtain ⟨call', h1, h2⟩ := iE i _ (List.getElem?_eq_getElem (by omega))
        rw [hi] at h1
        rw [← Option.some.inj h1, hci] at h2
        cases h2
      have hilt : i < calls.length := by
        rw [List.getElem?_eq_some] at hi
        exact hi.1
      apply StaticPlacer.add_cell_concrete_fail
      rw [hwm, hwc]
      omega

/-- Witness for C14: the sample run of two concrete cells followed by two
spacers. -/
theorem add_cell_indices_line_up_witness :
    (StaticPlacer.run (fun r : Int => r) (fun a b : Int => a + b)
        (StaticPlacer.start sampleGroups) sampleCalls).1.mcells.length = sampleCalls.length
    ∧ (∀ (i : Nat) (call : Call Int Int Nat), sampleCalls[i]? = some call →
        (call.ci = none ∨ (0 ≤ call.group ∧ call.group < (sampleGroups.length : Int))) →
        (StaticPlacer.run (fun r : Int => r) (fun a b : Int => a + b)
        (StaticPlacer.start sampleGroups) sampleCalls).2[i]?
          = some (Outcome.returned (i : Int)))
    ∧ (∀ (i : Nat) (idx : Int),
        (StaticPlacer.run (fun r : Int => r) (fun a b : Int => a + b)
        (StaticPlacer.start sampleGroups) sampleCalls).2[i]? = some (Outcome.returned idx) → idx = (i : Int))
    ∧ (StaticPlacer.run (fun r : Int => r) (fun a b : Int => a + b)
        (StaticPlacer.start sampleGroups) sampleCalls).1.ccells.length
        ≤ (StaticPlacer.run (fun r : Int => r) (fun a b : Int => a + b)
        (StaticPlacer.start sampleGroups) sampleCalls).1.mcells.length
    ∧ (∀ (i : Nat) (call : Call Int Int Nat) (c : Nat),
        sampleCalls[i]? = some call → call.ci = some c →
        ∃ cc : ConcreteCell Nat,
          (StaticPlacer.run (fun r : Int => r) (fun a b : Int => a + b)
        (StaticPlacer.start sampleGroups) sampleCalls).1.ccells[i]? = some cc
          ∧ cc.base_cell = c)
    ∧ (∀ (j : Nat) (m : MoveCell Int Int),
        (StaticPlacer.run (fun r : Int => r) (fun a b : Int => a + b)
        (StaticPlacer.start sampleGroups) sampleCalls).1.ccells.length ≤ j →
        (StaticPlacer.run (fun r : Int => r) (fun a b : Int => a + b)
        (StaticPlacer.start sampleGroups) sampleCalls).1.mcells[j]? = some m →
        m.is_spacer = true)
    ∧ (∀ (rect : Int) (group : Int) (x y : Int) (c : Nat),
        (StaticPlacer.add_cell (fun r : Int => r) (fun a b : Int => a + b)
            (StaticPlacer.run (fun r : Int => r) (fun a b : Int => a + b)
        (StaticPlacer.start sampleGroups) sampleCalls).1
            rect group x y (some c)).2 = Outcome.assertion_failure
        ↔ ∃ call ∈ sampleCalls, call.ci = none) :=
  add_cell_indices_line_up (fun r : Int => r) (fun a b : Int => a + b) sampleGroups sampleCalls
    (by decide) (by decide)

end

end PlacerStatic
